import Mathlib

/-!
Verification of the WorstCaseStack analyzer (`src/WCS.py`).

The Python program keeps one mutable dict per function; the namespaces
(`globals`, `locals`, `weak`) and the `r_calls` lists hold references to those
dicts.  We model the set of function records as an arena (a `List FxnRec`)
and model every reference as an index into that arena, as cross-references
between records; membership of a record in the `parents` list is modelled by
index membership (records reachable in a run are pairwise distinct, so dict
equality coincides with identity).  Mutation of a dict field becomes a
functional update of the arena at the record's index.

`calc_wcs` recurses through the call graph; its recursion depth is bounded in
Python by the growing `parents` list, so here it takes a fuel parameter and
returns `none` when fuel runs out (or on a lookup that would raise a
`KeyError` in Python); every theorem below supplies sufficient fuel.

The result field `wcs`, which in Python is either an `int` or the string
`'unbounded'` (absent until computed), is modelled as `Option Wcs`.
-/

/-- Result of the worst-case-stack computation for one function:
the Python value is either the string `'unbounded'` or an `int`. -/
inductive Wcs where
  | unbounded : Wcs
  | bounded : Nat → Wcs
deriving DecidableEq, Repr

/-- One function record: the fields of the Python per-function dict
(`CallNode`).  Fields that Python leaves absent until set are modelled
with their defaulted values (`has_ptr_call` defaults to `False`,
`local_stack` to `0`) or as `Option` (`wcs`, `clob_sp`, `demangledName`). -/
structure FxnRec where
  name : String
  tu : String
  bnd : String
  demangledName : Option String
  calls : List String
  rCalls : List Nat
  unresolvedCalls : List String
  hasPtrCall : Bool
  localStack : Nat
  clobSp : Option Nat
  wcs : Option Wcs
  isManual : Bool
deriving Repr

/-- `wcs` field of the record at index `i` (reference dereference). -/
def wcsOf (g : List FxnRec) (i : Nat) : Option Wcs :=
  match g[i]? with
  | some f => f.wcs
  | none => none

/-- `r_calls` field of the record at index `i`. -/
def rCallsOf (g : List FxnRec) (i : Nat) : List Nat :=
  match g[i]? with
  | some f => f.rCalls
  | none => []

/-- `unresolved_calls` field of the record at index `i`. -/
def unresolvedOf (g : List FxnRec) (i : Nat) : List String :=
  match g[i]? with
  | some f => f.unresolvedCalls
  | none => []

/-- `has_ptr_call` field of the record at index `i`. -/
def ptrOf (g : List FxnRec) (i : Nat) : Bool :=
  match g[i]? with
  | some f => f.hasPtrCall
  | none => false

/-- `local_stack` field of the record at index `i`. -/
def localOf (g : List FxnRec) (i : Nat) : Nat :=
  match g[i]? with
  | some f => f.localStack
  | none => 0

/-- `clob_sp` field of the record at index `i`. -/
def clobOf (g : List FxnRec) (i : Nat) : Option Nat :=
  match g[i]? with
  | some f => f.clobSp
  | none => none

/-- `name` field of the record at index `i`. -/
def nameOf (g : List FxnRec) (i : Nat) : String :=
  match g[i]? with
  | some f => f.name
  | none => ""

/-- `tu` field of the record at index `i`. -/
def tuOf (g : List FxnRec) (i : Nat) : String :=
  match g[i]? with
  | some f => f.tu
  | none => ""

/-- `calls` field of the record at index `i`. -/
def callsOf (g : List FxnRec) (i : Nat) : List String :=
  match g[i]? with
  | some f => f.calls
  | none => []

/-- Assign the `wcs` field of the record at index `i`
(`fxn_dict2['wcs'] = w` in Python). -/
def setWcs (g : List FxnRec) (i : Nat) (w : Wcs) : List FxnRec :=
  match g[i]? with
  | some f => g.set i { f with wcs := some w }
  | none => g

/-- Python `set.add`: insert into a set, modelled as a duplicate-free list
keeping insertion order. -/
def insertName (l : List String) (x : String) : List String :=
  if x ∈ l then l else l ++ [x]

/-- Add every name of `names` to the `unresolved_calls` set of the record at
index `i` (the propagation loop in `calc_wcs`). -/
def addUnres (g : List FxnRec) (i : Nat) (names : List String) : List FxnRec :=
  match g[i]? with
  | some f => g.set i { f with unresolvedCalls := names.foldl insertName f.unresolvedCalls }
  | none => g

/-- The combination `calc_wcs` performs after its callee loop:
`wcs = call_max + local_stack`, then, when `clob_sp` is present,
`wcs += wcs + clob_sp`. -/
def combineW (lo : Nat) (clob : Option Nat) (cm : Nat) : Nat :=
  match clob with
  | none => cm + lo
  | some cs => (cm + lo) + ((cm + lo) + cs)

/-- The body of the `for call_dict in fxn_dict2['r_calls']` loop of
`calc_wcs`, for the function at index `i` with ancestor path `ps`.
`recFn` is the recursive call (`calc_wcs` with one unit less fuel), `cm` the
running `call_max`.  Returns the updated arena and `some call_max` when the
loop completes, or `(g, none)` after the early `return` on an unbounded
callee (which first sets `fxn_dict2['wcs'] = 'unbounded'`). -/
def wcsLoop (recFn : List FxnRec → Nat → List Nat → Option (List FxnRec)) (i : Nat)
    (ps : List Nat) : List FxnRec → List Nat → Nat → Option (List FxnRec × Option Nat)
  | g, [], cm => some (g, some cm)
  | g, c :: rest, cm =>
    match recFn g c (ps ++ [i]) with
    | none => none
    | some g1 =>
      match wcsOf g1 c with
      | some Wcs.unbounded => some (setWcs g1 i Wcs.unbounded, none)
      | some (Wcs.bounded n) =>
        wcsLoop recFn i ps (addUnres g1 i (unresolvedOf g1 c)) rest (max cm n)
      | none => none

/-- One unfolding of `calc_wcs` (the Python function body), parameterised by
the recursive occurrence `recFn`. -/
def calcWcsF (recFn : List FxnRec → Nat → List Nat → Option (List FxnRec))
    (g : List FxnRec) (i : Nat) (ps : List Nat) : Option (List FxnRec) :=
  match g[i]? with
  | none => none
  | some f =>
    -- If the wcs is already known, then nothing to do
    if f.wcs.isSome then some g
    -- Check for pointer calls
    else if f.hasPtrCall then some (setWcs g i Wcs.unbounded)
    -- Check for recursion
    else if i ∈ ps then some (setWcs g i Wcs.unbounded)
    else
      match wcsLoop recFn i ps g f.rCalls 0 with
      | none => none
      | some (g2, none) => some g2
      | some (g2, some cm) =>
        match g2[i]? with
        | none => none
        | some f2 =>
          -- fxn_dict2['wcs'] = call_max + fxn_dict2['local_stack'], then
          -- if 'clob_sp' in fxn_dict2:
          --   fxn_dict2['wcs'] += fxn_dict2['wcs'] + fxn_dict2['clob_sp']
          some (setWcs g2 i (Wcs.bounded (combineW f2.localStack f2.clobSp cm)))

/-- `calc_wcs(fxn_dict2, parents)` with fuel: the function at index `i` of
arena `g`, with ancestor path `ps` (the Python `parents` list of records). -/
def calcWcs : Nat → List FxnRec → Nat → List Nat → Option (List FxnRec)
  | 0 => fun _ _ _ => none
  | Nat.succ fuel => calcWcsF (calcWcs fuel)

/-- `calc_all_wcs`: run `calc_wcs(fxn_dict, [])` over the records listed in
`order` (the iteration over `globals.values()` then `locals`). -/
def calcAll (fuel : Nat) : List FxnRec → List Nat → Option (List FxnRec)
  | g, [] => some g
  | g, i :: rest =>
    match calcWcs fuel g i [] with
    | none => none
    | some g1 => calcAll fuel g1 rest

/-- Python `dict` lookup on an insertion-ordered association list. -/
def lookupA {α : Type} : List (String × α) → String → Option α
  | [], _ => none
  | (k, v) :: rest, n => if k = n then some v else lookupA rest n

/-- Python `dict` assignment `d[k] = v`: update in place if the key exists,
otherwise append (insertion order preserved). -/
def setA {α : Type} : List (String × α) → String → α → List (String × α)
  | [], k, v => [(k, v)]
  | (k', v') :: rest, k, v =>
    if k' = k then (k, v) :: rest else (k', v') :: setA rest k v

/-- The `CallGraph` object: the arena owns every function record; the three
namespaces and the per-unit local map hold indices into it. -/
structure CallGraph where
  arena : List FxnRec
  globalsNs : List (String × Nat)
  localsNs : List (String × List (String × Nat))
  weakNs : List (String × Nat)
  irqs : List String

/-- One symbol-table row as consumed by `read_obj` (`Symbol` in the source). -/
structure SymbolR where
  type : String
  bnd : String
  name : String

/-- A fresh record as `read_obj` creates it:
`{'tu': tu, 'name': s.name, 'binding': s.binding}`. -/
def newNode (tu nm bd : String) : FxnRec :=
  { name := nm, tu := tu, bnd := bd, demangledName := none, calls := [],
    rCalls := [], unresolvedCalls := [], hasPtrCall := false, localStack := 0,
    clobSp := none, wcs := none, isManual := false }

/-- The per-symbol body of `CallGraph.read_obj`: register one symbol-table
row for translation unit `tu`. -/
def registerSymbol (cg : CallGraph) (tu : String) (s : SymbolR) : Except String CallGraph :=
  if s.type = "FUNC" then
    if s.bnd = "GLOBAL" then
      -- if s.name in self.globals or s.name in self.locals: raise
      if (lookupA cg.globalsNs s.name).isSome || (lookupA cg.localsNs s.name).isSome then
        Except.error ("Multiple declarations of " ++ s.name)
      else
        Except.ok { cg with
                    arena := cg.arena ++ [newNode tu s.name s.bnd],
                    globalsNs := setA cg.globalsNs s.name cg.arena.length }
    else if s.bnd = "LOCAL" then
      -- if s.name in self.locals and tu in self.locals[s.name]: raise
      match lookupA cg.localsNs s.name with
      | some m =>
        if (lookupA m tu).isSome then
          Except.error ("Multiple declarations of " ++ s.name)
        else
          Except.ok { cg with
                      arena := cg.arena ++ [newNode tu s.name s.bnd],
                      localsNs := setA cg.localsNs s.name (setA m tu cg.arena.length) }
      | none =>
        Except.ok { cg with
                    arena := cg.arena ++ [newNode tu s.name s.bnd],
                    localsNs := setA cg.localsNs s.name [(tu, cg.arena.length)] }
    else if s.bnd = "WEAK" then
      if (lookupA cg.weakNs s.name).isSome then
        Except.error ("Multiple declarations of " ++ s.name)
      else
        Except.ok { cg with
                    arena := cg.arena ++ [newNode tu s.name s.bnd],
                    weakNs := setA cg.weakNs s.name cg.arena.length }
    else
      Except.error ("Error Unknown Binding for symbol: " ++ s.name)
  else
    Except.ok cg

/-- `CallGraph.find_fxn(tu, fxn)`: the global match if present, else the
local match scoped to `tu` (a `KeyError` at either level returns `None`). -/
def findFxn (cg : CallGraph) (tu fxn : String) : Option Nat :=
  if (lookupA cg.globalsNs fxn).isSome then
    lookupA cg.globalsNs fxn
  else
    match lookupA cg.localsNs fxn with
    | some m => lookupA m tu
    | none => none

/-- The synthetic record `read_manual` creates: the `wcs` is written at load
time, so the WCS engine's memoisation returns it unchanged. -/
def manualNode (fxn : String) (sz : Nat) : FxnRec :=
  { name := fxn, tu := "#MANUAL", bnd := "GLOBAL", demangledName := some fxn,
    calls := [], rCalls := [], unresolvedCalls := [], hasPtrCall := false,
    localStack := sz, clobSp := none, wcs := some (Wcs.bounded sz), isManual := true }

/-- One line of `CallGraph.read_manual`: a `(name, bytes)` pair. -/
def readManualLine (cg : CallGraph) (fxn : String) (sz : Nat) : Except String CallGraph :=
  if (lookupA cg.globalsNs fxn).isSome then
    Except.error ("Redeclared Function " ++ fxn)
  else
    Except.ok { cg with
                arena := cg.arena ++ [manualNode fxn sz],
                globalsNs := setA cg.globalsNs fxn cg.arena.length }

/-- The inner `resolve_calls` of `CallGraph.resolve_all_calls`: recompute
`r_calls` and `unresolved_calls` of one record from its raw `calls`. -/
def resolveNode (cg : CallGraph) (f : FxnRec) : FxnRec :=
  { f with rCalls := f.calls.filterMap (fun c => findFxn cg f.tu c),
           unresolvedCalls := f.calls.filter (fun c => (findFxn cg f.tu c).isNone) }

/-- `CallGraph.resolve_all_calls`: every record's calls are resolved against
the namespaces (each record is handled independently). -/
def resolveAllCalls (cg : CallGraph) : CallGraph :=
  { cg with arena := cg.arena.map (resolveNode cg) }

/-- The iteration order over all records used by `calc_all_wcs`,
`check_stack_size` and `print_all_fxns`: `globals.values()` first, then the
nested `locals` values. -/
def cgOrder (cg : CallGraph) : List Nat :=
  cg.globalsNs.map (fun p => p.2) ++
    (cg.localsNs.map (fun p => p.2.map (fun q => q.2))).flatten

/-- `CallGraph.calc_all_wcs` (with fuel for the recursion of `calc_wcs`). -/
def calcAllWcsCg (cg : CallGraph) (fuel : Nat) : Option CallGraph :=
  (calcAll fuel cg.arena (cgOrder cg)).map (fun a => { cg with arena := a })

/-- One resolution pass followed by one WCS pass. -/
def runPass (cg : CallGraph) (fuel : Nat) : Option CallGraph :=
  calcAllWcsCg (resolveAllCalls cg) fuel

/-- Outcome of `check_stack_size` when it terminates normally. -/
structure BudgetReport where
  required : Nat
  maxFxnName : String
  maxIrqName : String
  ok : Bool
deriving DecidableEq, Repr

/-- Python `str.startswith(p)`: a prefix test, phrased on the character
lists so that it evaluates by kernel reduction. -/
def pyStartswith (s p : String) : Bool := p.data.isPrefixOf s.data

/-- The maximum-finding loop of `check_stack_size`.  For every record
exactly one of `d['wcs'] > max_stack` / `d['wcs'] > max_irq` is evaluated
(the other is skipped by `and` short-circuiting on the name test); comparing
the string `'unbounded'` (or a missing `wcs`) with an `int` raises a
`TypeError` in Python 3, modelled as `none`. -/
def checkLoop (g : List FxnRec) : List Nat → Nat → Nat → String → String →
    Option (Nat × Nat × String × String)
  | [], ms, mi, nf, ni => some (ms, mi, nf, ni)
  | i :: rest, ms, mi, nf, ni =>
    if pyStartswith (nameOf g i) "_irq" then
      match wcsOf g i with
      | some (Wcs.bounded n) =>
        if mi < n then checkLoop g rest ms n nf (nameOf g i)
        else checkLoop g rest ms mi nf ni
      | _ => none
    else
      match wcsOf g i with
      | some (Wcs.bounded n) =>
        if ms < n then checkLoop g rest n mi (nameOf g i) ni
        else checkLoop g rest ms mi nf ni
      | _ => none

/-- `CallGraph.check_stack_size` over an arena and iteration order:
`none` models the run aborting with a `TypeError`. -/
def checkStackSize (g : List FxnRec) (order : List Nat) (limit : Nat) :
    Option BudgetReport :=
  (checkLoop g order 0 0 "" "").map
    (fun r => { required := r.1 + r.2.1, maxFxnName := r.2.2.1,
                maxIrqName := r.2.2.2, ok := !(limit < r.1 + r.2.1) })

/-- `CallGraph.check_stack_size` on the call graph's own record order. -/
def checkStackSizeCg (cg : CallGraph) (limit : Nat) : Option BudgetReport :=
  checkStackSize cg.arena (cgOrder cg) limit

/-- `call_max` as accumulated by the loop: an iterated `max` starting at 0. -/
def listMax (l : List Nat) : Nat := l.foldl max 0

/-- The numeric value of a `Bounded` result (0 for anything else); used only
where every referenced result is known to be `Bounded`. -/
def bvalOf (g : List FxnRec) (c : Nat) : Nat :=
  match wcsOf g c with
  | some (Wcs.bounded m) => m
  | _ => 0

/-- Reachability through one or more resolved call edges. -/
inductive Reach (g : List FxnRec) : Nat → Nat → Prop
  | single {i c : Nat} : c ∈ rCallsOf g i → Reach g i c
  | head {i c j : Nat} : c ∈ rCallsOf g i → Reach g c j → Reach g i j

/-! ## Basic update lemmas -/

/-- The fields of a record that the WCS engine never writes. -/
def core (f : FxnRec) :
    String × String × String × Option String × List String × List Nat × Bool × Nat ×
      Option Nat × Bool :=
  (f.name, f.tu, f.bnd, f.demangledName, f.calls, f.rCalls, f.hasPtrCall, f.localStack,
   f.clobSp, f.isManual)

/-- The engine-stable fields of the record at index `j`. -/
def coreOf (g : List FxnRec) (j : Nat) :=
  (g[j]?).map core

/-! ## The evolution relation of the WCS engine -/

/-- What holds of a record finalised as `Bounded n`: every resolved callee
carries a `Bounded` result, `n` is the engine's combination of `local_stack`,
`clob_sp` and the callees' maximum, and the unresolved set is the record's own
unresolved names together with those of its callees. -/
def BoundedPack (g g' : List FxnRec) (j : Nat) (n : Nat) : Prop :=
  (∀ c ∈ rCallsOf g j, ∃ m, wcsOf g' c = some (Wcs.bounded m)) ∧
  n = combineW (localOf g j) (clobOf g j) (listMax ((rCallsOf g j).map (bvalOf g'))) ∧
  (∀ x, x ∈ unresolvedOf g' j ↔ x ∈ unresolvedOf g j ∨ ∃ c ∈ rCallsOf g j, x ∈ unresolvedOf g' c)

/-- How a complete engine call transforms the arena: lengths and stable
fields are preserved, memoised results (and their unresolved sets) are
frozen, untouched records keep their unresolved sets, and every newly
finalised record is either `Unbounded` or carries a `BoundedPack`. -/
structure Evolve (g g' : List FxnRec) : Prop where
  len : g'.length = g.length
  stable : ∀ j, coreOf g' j = coreOf g j
  frozen : ∀ j w, wcsOf g j = some w → wcsOf g' j = some w
  frozenU : ∀ j w, wcsOf g j = some w → unresolvedOf g' j = unresolvedOf g j
  quiet : ∀ j, wcsOf g j = none → wcsOf g' j = none → unresolvedOf g' j = unresolvedOf g j
  newly : ∀ j w, wcsOf g j = none → wcsOf g' j = some w →
    w = Wcs.unbounded ∨ ∃ n, w = Wcs.bounded n ∧ BoundedPack g g' j n

/-- As `Evolve`, but for a prefix of the callee loop of the record `ex`:
`ex`'s unresolved set may grow while its result is still unset, and `ex`
itself can only have been finalised `Unbounded` (the early exit). -/
structure EvolveAt (g g' : List FxnRec) (ex : Nat) : Prop where
  len : g'.length = g.length
  stable : ∀ j, coreOf g' j = coreOf g j
  frozen : ∀ j w, wcsOf g j = some w → wcsOf g' j = some w
  frozenU : ∀ j w, wcsOf g j = some w → unresolvedOf g' j = unresolvedOf g j
  quietX : ∀ j, j ≠ ex → wcsOf g j = none → wcsOf g' j = none →
    unresolvedOf g' j = unresolvedOf g j
  newlyEx : ∀ w, wcsOf g ex = none → wcsOf g' ex = some w → w = Wcs.unbounded
  newlyOther : ∀ j w, j ≠ ex → wcsOf g j = none → wcsOf g' j = some w →
    w = Wcs.unbounded ∨ ∃ n, w = Wcs.bounded n ∧ BoundedPack g g' j n

/-! ## The master postcondition of `calc_wcs` -/

/-- Postcondition of one successful `calc_wcs` call on target `i` with
ancestor path `ps`: an `Evolve` step, the target ends with a result, and any
ancestor whose result was set by this call was set to `Unbounded` together
with the target. -/
def PostW (g g' : List FxnRec) (i : Nat) (ps : List Nat) : Prop :=
  Evolve g g' ∧ (∃ w, wcsOf g' i = some w) ∧
  (∀ j ∈ ps, wcsOf g j = none → ∀ w, wcsOf g' j = some w →
    w = Wcs.unbounded ∧ wcsOf g' i = some Wcs.unbounded)

/-! ## Totality: sufficient fuel -/

/-- Well-formed arena: every resolved call edge stays inside the arena. -/
def WfArena (g : List FxnRec) : Prop :=
  ∀ i < g.length, ∀ c ∈ rCallsOf g i, c < g.length

/-! ## Preservation invariants of the engine -/

/-- No record of the arena carries a pointer call. -/
def NoPtr (g : List FxnRec) : Prop := ∀ j < g.length, ptrOf g j = false

/-- `rank` witnesses acyclicity: it strictly decreases along call edges. -/
def RankOk (g : List FxnRec) (rank : Nat → Nat) : Prop :=
  ∀ j < g.length, ∀ c ∈ rCallsOf g j, rank c < rank j

/-- No record has been finalised `Unbounded`. -/
def NoUnb (g : List FxnRec) : Prop := ∀ j, wcsOf g j ≠ some Wcs.unbounded

/-- A record with a pointer call never carries a `Bounded` result. -/
def PtrInv (g : List FxnRec) : Prop :=
  ∀ j n, ptrOf g j = true → wcsOf g j ≠ some (Wcs.bounded n)

/-- A record on a call cycle never carries a `Bounded` result. -/
def CycInv (g : List FxnRec) : Prop :=
  ∀ j, Reach g j j → ∀ n, wcsOf g j ≠ some (Wcs.bounded n)

/-! ## Properties of `calc_all_wcs` -/

/-! ## Concrete graphs used as witnesses and counterexamples -/

/-- A single function with `local_stack = 8` and `clob_sp = 4`, no callees. -/
def gClob : List FxnRec :=
  [{ newNode "main.c" "f" "GLOBAL" with localStack := 8, clobSp := some 4 }]

/-- `A → B → C` with own stack 8/12/4, no pointer calls, no cycles. -/
def gABC : List FxnRec :=
  [{ newNode "main.c" "A" "GLOBAL" with localStack := 8, rCalls := [1] },
   { newNode "main.c" "B" "GLOBAL" with localStack := 12, rCalls := [2] },
   { newNode "main.c" "C" "GLOBAL" with localStack := 4, rCalls := [] }]

/-- `A → B → A`: mutual recursion. -/
def gCyc2 : List FxnRec :=
  [{ newNode "main.c" "A" "GLOBAL" with localStack := 1, rCalls := [1] },
   { newNode "main.c" "B" "GLOBAL" with localStack := 2, rCalls := [0] }]

/-- `A` has a pointer call and one perfectly bounded callee `B`. -/
def gPtr2 : List FxnRec :=
  [{ newNode "main.c" "A" "GLOBAL" with localStack := 5, hasPtrCall := true, rCalls := [1] },
   { newNode "main.c" "B" "GLOBAL" with localStack := 2 }]

/-- `A → B`; `A` has own unresolved name `X`, `B` has own unresolved `Y`. -/
def gUnres : List FxnRec :=
  [{ newNode "main.c" "A" "GLOBAL" with
     localStack := 3
     rCalls := [1]
     unresolvedCalls := ["X"] },
   { newNode "main.c" "B" "GLOBAL" with localStack := 1, unresolvedCalls := ["Y"] }]

/-! ## Claim theorems: the WCS engine -/

/-! ## Properties of resolution and the call-graph wrappers -/

/-! ## Claim theorems: namespaces, manual overrides, budget check -/

/-- The collision-asymmetry setting: a local `g` in unit `u` and a global
`f`. -/
def cgMixed : CallGraph :=
  { arena := [newNode "u" "g" "LOCAL", newNode "u" "f" "GLOBAL"],
    globalsNs := [("f", 1)], localsNs := [("g", [("u", 0)])], weakNs := [], irqs := [] }

/-- The caller of the manual-override example: `main` with
`own_stack_bytes = 8` whose only call is `__assert_func`. -/
def cgCaller : CallGraph :=
  { arena := [{ newNode "main.c" "main" "GLOBAL" with
                localStack := 8
                calls := ["__assert_func"] }],
    globalsNs := [("main", 0)], localsNs := [], weakNs := [], irqs := [] }

/-- The finalised call graph whose single ordinary function has an
`Unbounded` result. -/
def cgUnbChk : CallGraph :=
  { arena := [{ newNode "main.c" "main" "GLOBAL" with wcs := some Wcs.unbounded }],
    globalsNs := [("main", 0)], localsNs := [], weakNs := [], irqs := [] }

/-- `A` calls `B`; `B` calls the undefined name `X`. -/
def cgResolve : CallGraph :=
  { arena := [{ newNode "main.c" "A" "GLOBAL" with localStack := 1, calls := ["B"] },
              { newNode "main.c" "B" "GLOBAL" with localStack := 2, calls := ["X"] }],
    globalsNs := [("A", 0), ("B", 1)], localsNs := [], weakNs := [], irqs := [] }

theorem length_setWcs (g : List FxnRec) (i : Nat) (w : Wcs) :
    (setWcs g i w).length = g.length := by
  unfold setWcs
  cases h : g[i]? with
  | none => rfl
  | some f => exact List.length_set ..

theorem getElem?_setWcs (g : List FxnRec) (i : Nat) (w : Wcs) (j : Nat) :
    (setWcs g i w)[j]? =
      if i = j then (g[i]?).map (fun f => { f with wcs := some w }) else g[j]? := by
  unfold setWcs
  by_cases hij : i = j
  · subst hij
    cases h : g[i]? with
    | none => simp [h]
    | some f =>
      have hi : i < g.length := (List.getElem?_eq_some.mp h).1
      simp [h, List.getElem?_set, hi]
  · cases h : g[i]? with
    | none => simp [h, hij]
    | some f => simp [h, List.getElem?_set, hij]

theorem length_addUnres (g : List FxnRec) (i : Nat) (ns : List String) :
    (addUnres g i ns).length = g.length := by
  unfold addUnres
  cases h : g[i]? with
  | none => rfl
  | some f => exact List.length_set ..

theorem getElem?_addUnres (g : List FxnRec) (i : Nat) (ns : List String) (j : Nat) :
    (addUnres g i ns)[j]? =
      if i = j then
        (g[i]?).map (fun f => { f with unresolvedCalls := ns.foldl insertName f.unresolvedCalls })
      else g[j]? := by
  unfold addUnres
  by_cases hij : i = j
  · subst hij
    cases h : g[i]? with
    | none => simp [h]
    | some f =>
      have hi : i < g.length := (List.getElem?_eq_some.mp h).1
      simp [h, List.getElem?_set, hi]
  · cases h : g[i]? with
    | none => simp [h, hij]
    | some f => simp [h, List.getElem?_set, hij]

theorem coreOf_elim {g g' : List FxnRec} {j : Nat} (h : coreOf g' j = coreOf g j) :
    nameOf g' j = nameOf g j ∧ tuOf g' j = tuOf g j ∧ callsOf g' j = callsOf g j ∧
      rCallsOf g' j = rCallsOf g j ∧ ptrOf g' j = ptrOf g j ∧
      localOf g' j = localOf g j ∧ clobOf g' j = clobOf g j := by
  unfold coreOf at h
  unfold nameOf tuOf callsOf rCallsOf ptrOf localOf clobOf
  cases h1 : g'[j]? with
  | none =>
    cases h2 : g[j]? with
    | none => simp
    | some b => rw [h1, h2] at h; simp at h
  | some a =>
    cases h2 : g[j]? with
    | none => rw [h1, h2] at h; simp at h
    | some b =>
      rw [h1, h2] at h
      simp only [Option.map_some', Option.some.injEq, core, Prod.mk.injEq] at h
      obtain ⟨e1, e2, e3, e4, e5, e6, e7, e8, e9, e10⟩ := h
      simp only [e1, e2, e5, e6, e7, e8, e9, and_self]

theorem coreOf_setWcs (g : List FxnRec) (i : Nat) (w : Wcs) (j : Nat) :
    coreOf (setWcs g i w) j = coreOf g j := by
  unfold coreOf
  rw [getElem?_setWcs]
  by_cases hij : i = j
  · subst hij
    rw [if_pos rfl]
    cases g[i]? <;> rfl
  · rw [if_neg hij]

theorem coreOf_addUnres (g : List FxnRec) (i : Nat) (ns : List String) (j : Nat) :
    coreOf (addUnres g i ns) j = coreOf g j := by
  unfold coreOf
  rw [getElem?_addUnres]
  by_cases hij : i = j
  · subst hij
    rw [if_pos rfl]
    cases g[i]? <;> rfl
  · rw [if_neg hij]

theorem wcsOf_setWcs_self {g : List FxnRec} {i : Nat} (w : Wcs) (h : i < g.length) :
    wcsOf (setWcs g i w) i = some w := by
  unfold wcsOf
  rw [getElem?_setWcs, if_pos rfl, List.getElem?_eq_getElem h]
  rfl

theorem wcsOf_setWcs_ne {g : List FxnRec} {i j : Nat} (w : Wcs) (h : i ≠ j) :
    wcsOf (setWcs g i w) j = wcsOf g j := by
  unfold wcsOf
  rw [getElem?_setWcs, if_neg h]

theorem wcsOf_addUnres (g : List FxnRec) (i : Nat) (ns : List String) (j : Nat) :
    wcsOf (addUnres g i ns) j = wcsOf g j := by
  unfold wcsOf
  rw [getElem?_addUnres]
  by_cases hij : i = j
  · subst hij
    rw [if_pos rfl]
    cases g[i]? <;> rfl
  · rw [if_neg hij]

theorem unresolvedOf_setWcs (g : List FxnRec) (i : Nat) (w : Wcs) (j : Nat) :
    unresolvedOf (setWcs g i w) j = unresolvedOf g j := by
  unfold unresolvedOf
  rw [getElem?_setWcs]
  by_cases hij : i = j
  · subst hij
    rw [if_pos rfl]
    cases g[i]? <;> rfl
  · rw [if_neg hij]

theorem unresolvedOf_addUnres_ne {g : List FxnRec} {i j : Nat} (ns : List String) (h : i ≠ j) :
    unresolvedOf (addUnres g i ns) j = unresolvedOf g j := by
  unfold unresolvedOf
  rw [getElem?_addUnres, if_neg h]

theorem wcsOf_isSome_lt {g : List FxnRec} {i : Nat} {w : Wcs} (h : wcsOf g i = some w) :
    i < g.length := by
  unfold wcsOf at h
  cases h1 : g[i]? with
  | none => rw [h1] at h; exact absurd h (by simp)
  | some f => exact (List.getElem?_eq_some.mp h1).1

theorem mem_insertName {l : List String} {n x : String} :
    x ∈ insertName l n ↔ x ∈ l ∨ x = n := by
  unfold insertName
  split
  · next hmem =>
    constructor
    · exact fun h => Or.inl h
    · rintro (h | rfl)
      · exact h
      · exact hmem
  · simp

theorem mem_foldl_insertName {ns : List String} {l : List String} {x : String} :
    x ∈ ns.foldl insertName l ↔ x ∈ l ∨ x ∈ ns := by
  induction ns generalizing l with
  | nil => simp
  | cons n rest ih =>
    rw [List.foldl_cons, ih, mem_insertName]
    constructor
    · rintro ((h | rfl) | h)
      · exact Or.inl h
      · exact Or.inr (List.mem_cons_self ..)
      · exact Or.inr (List.mem_cons_of_mem _ h)
    · rintro (h | h)
      · exact Or.inl (Or.inl h)
      · rcases List.mem_cons.mp h with rfl | h
        · exact Or.inl (Or.inr rfl)
        · exact Or.inr h

theorem unresolvedOf_addUnres_self {g : List FxnRec} {i : Nat} (ns : List String)
    (h : i < g.length) (x : String) :
    x ∈ unresolvedOf (addUnres g i ns) i ↔ x ∈ unresolvedOf g i ∨ x ∈ ns := by
  unfold unresolvedOf
  rw [getElem?_addUnres, if_pos rfl, List.getElem?_eq_getElem h]
  exact mem_foldl_insertName

theorem rCallsOf_of_stable {g g' : List FxnRec} (hs : ∀ j, coreOf g' j = coreOf g j) (j : Nat) :
    rCallsOf g' j = rCallsOf g j := (coreOf_elim (hs j)).2.2.2.1

theorem ptrOf_of_stable {g g' : List FxnRec} (hs : ∀ j, coreOf g' j = coreOf g j) (j : Nat) :
    ptrOf g' j = ptrOf g j := (coreOf_elim (hs j)).2.2.2.2.1

theorem localOf_of_stable {g g' : List FxnRec} (hs : ∀ j, coreOf g' j = coreOf g j) (j : Nat) :
    localOf g' j = localOf g j := (coreOf_elim (hs j)).2.2.2.2.2.1

theorem clobOf_of_stable {g g' : List FxnRec} (hs : ∀ j, coreOf g' j = coreOf g j) (j : Nat) :
    clobOf g' j = clobOf g j := (coreOf_elim (hs j)).2.2.2.2.2.2

theorem nameOf_of_stable {g g' : List FxnRec} (hs : ∀ j, coreOf g' j = coreOf g j) (j : Nat) :
    nameOf g' j = nameOf g j := (coreOf_elim (hs j)).1

theorem tuOf_of_stable {g g' : List FxnRec} (hs : ∀ j, coreOf g' j = coreOf g j) (j : Nat) :
    tuOf g' j = tuOf g j := (coreOf_elim (hs j)).2.1

theorem callsOf_of_stable {g g' : List FxnRec} (hs : ∀ j, coreOf g' j = coreOf g j) (j : Nat) :
    callsOf g' j = callsOf g j := (coreOf_elim (hs j)).2.2.1

theorem evolve_refl (g : List FxnRec) : Evolve g g where
  len := rfl
  stable := fun _ => rfl
  frozen := fun _ _ h => h
  frozenU := fun _ _ _ => rfl
  quiet := fun _ _ _ => rfl
  newly := fun j w hn hs => absurd (hn ▸ hs) (by simp)

theorem boundedPack_post {g g1 g2 : List FxnRec} {j n : Nat}
    (hp : BoundedPack g g1 j n)
    (hfz : ∀ c w, wcsOf g1 c = some w → wcsOf g2 c = some w)
    (hfzU : ∀ c w, wcsOf g1 c = some w → unresolvedOf g2 c = unresolvedOf g1 c)
    (hj : unresolvedOf g2 j = unresolvedOf g1 j) :
    BoundedPack g g2 j n := by
  obtain ⟨hb, hf, hu⟩ := hp
  refine ⟨?_, ?_, ?_⟩
  · intro c hc
    obtain ⟨m, hm⟩ := hb c hc
    exact ⟨m, hfz c _ hm⟩
  · have hmap : (rCallsOf g j).map (bvalOf g2) = (rCallsOf g j).map (bvalOf g1) := by
      refine List.map_congr_left ?_
      intro c hc
      obtain ⟨m, hm⟩ := hb c hc
      unfold bvalOf
      rw [hm, hfz c _ hm]
    rw [hmap]
    exact hf
  · intro x
    rw [hj, hu x]
    constructor
    · rintro (h | ⟨c, hc, hx⟩)
      · exact Or.inl h
      · obtain ⟨m, hm⟩ := hb c hc
        exact Or.inr ⟨c, hc, by rw [hfzU c _ hm]; exact hx⟩
    · rintro (h | ⟨c, hc, hx⟩)
      · exact Or.inl h
      · obtain ⟨m, hm⟩ := hb c hc
        rw [hfzU c _ hm] at hx
        exact Or.inr ⟨c, hc, hx⟩

theorem boundedPack_pre {g0 g g' : List FxnRec} {j n : Nat}
    (hp : BoundedPack g g' j n)
    (hr : rCallsOf g j = rCallsOf g0 j) (hl : localOf g j = localOf g0 j)
    (hc : clobOf g j = clobOf g0 j) (hu : unresolvedOf g j = unresolvedOf g0 j) :
    BoundedPack g0 g' j n := by
  unfold BoundedPack at hp ⊢
  rw [hr, hl, hc, hu] at hp
  exact hp

theorem evolve_trans {g g1 g2 : List FxnRec} (h1 : Evolve g g1) (h2 : Evolve g1 g2) :
    Evolve g g2 where
  len := h2.len.trans h1.len
  stable := fun j => (h2.stable j).trans (h1.stable j)
  frozen := fun j w h => h2.frozen j w (h1.frozen j w h)
  frozenU := fun j w h => (h2.frozenU j w (h1.frozen j w h)).trans (h1.frozenU j w h)
  quiet := fun j hn hn2 => by
    cases hm : wcsOf g1 j with
    | some w => rw [h2.frozen j w hm] at hn2; exact absurd hn2 (by simp)
    | none => exact (h2.quiet j hm hn2).trans (h1.quiet j hn hm)
  newly := fun j w hn hs => by
    cases hm : wcsOf g1 j with
    | some w1 =>
      have hw : w1 = w := by
        have h3 := h2.frozen j w1 hm
        rw [hs] at h3
        exact (Option.some.inj h3).symm
      subst hw
      rcases h1.newly j w1 hn hm with h | ⟨n, rfl, hp⟩
      · exact Or.inl h
      · exact Or.inr ⟨n, rfl,
          boundedPack_post hp h2.frozen h2.frozenU (h2.frozenU j _ hm)⟩
    | none =>
      rcases h2.newly j w hm hs with h | ⟨n, hw, hp⟩
      · exact Or.inl h
      · refine Or.inr ⟨n, hw, boundedPack_pre hp ?_ ?_ ?_ ?_⟩
        · exact rCallsOf_of_stable h1.stable j
        · exact localOf_of_stable h1.stable j
        · exact clobOf_of_stable h1.stable j
        · exact h1.quiet j hn hm

theorem evolveAt_trans {g g1 g2 : List FxnRec} {ex : Nat}
    (h1 : EvolveAt g g1 ex) (h2 : EvolveAt g1 g2 ex) : EvolveAt g g2 ex where
  len := h2.len.trans h1.len
  stable := fun j => (h2.stable j).trans (h1.stable j)
  frozen := fun j w h => h2.frozen j w (h1.frozen j w h)
  frozenU := fun j w h => (h2.frozenU j w (h1.frozen j w h)).trans (h1.frozenU j w h)
  quietX := fun j hne hn hn2 => by
    cases hm : wcsOf g1 j with
    | some w => rw [h2.frozen j w hm] at hn2; exact absurd hn2 (by simp)
    | none => exact (h2.quietX j hne hm hn2).trans (h1.quietX j hne hn hm)
  newlyEx := fun w hn hs => by
    cases hm : wcsOf g1 ex with
    | some w1 =>
      have hw : w1 = w := by
        have h3 := h2.frozen ex w1 hm
        rw [hs] at h3
        exact (Option.some.inj h3).symm
      subst hw
      exact h1.newlyEx w1 hn hm
    | none => exact h2.newlyEx w hm hs
  newlyOther := fun j w hne hn hs => by
    cases hm : wcsOf g1 j with
    | some w1 =>
      have hw : w1 = w := by
        have h3 := h2.frozen j w1 hm
        rw [hs] at h3
        exact (Option.some.inj h3).symm
      subst hw
      rcases h1.newlyOther j w1 hne hn hm with h | ⟨n, rfl, hp⟩
      · exact Or.inl h
      · exact Or.inr ⟨n, rfl,
          boundedPack_post hp h2.frozen h2.frozenU (h2.frozenU j _ hm)⟩
    | none =>
      rcases h2.newlyOther j w hne hm hs with h | ⟨n, hw, hp⟩
      · exact Or.inl h
      · refine Or.inr ⟨n, hw, boundedPack_pre hp ?_ ?_ ?_ ?_⟩
        · exact rCallsOf_of_stable h1.stable j
        · exact localOf_of_stable h1.stable j
        · exact clobOf_of_stable h1.stable j
        · exact h1.quietX j hne hn hm

/-- Weaken a full `Evolve` step to an `EvolveAt` step, given that the
excluded record can only have been newly set to `Unbounded`. -/
theorem evolveAt_of_evolve {g g' : List FxnRec} {ex : Nat} (h : Evolve g g')
    (hex : ∀ w, wcsOf g ex = none → wcsOf g' ex = some w → w = Wcs.unbounded) :
    EvolveAt g g' ex where
  len := h.len
  stable := h.stable
  frozen := h.frozen
  frozenU := h.frozenU
  quietX := fun j _ => h.quiet j
  newlyEx := hex
  newlyOther := fun j w _ => h.newly j w

/-- An `EvolveAt` step whose excluded record ended `Unbounded` is a full
`Evolve` step. -/
theorem evolveAt_toEvolve {g g' : List FxnRec} {ex : Nat} (h : EvolveAt g g' ex)
    (hnone : wcsOf g ex = none) (hsome : wcsOf g' ex = some Wcs.unbounded) :
    Evolve g g' where
  len := h.len
  stable := h.stable
  frozen := h.frozen
  frozenU := h.frozenU
  quiet := fun j hn hn2 => by
    by_cases hje : j = ex
    · subst hje
      rw [hsome] at hn2
      exact absurd hn2 (by simp)
    · exact h.quietX j hje hn hn2
  newly := fun j w hn hs => by
    by_cases hje : j = ex
    · subst hje
      exact Or.inl (h.newlyEx w hn hs)
    · exact h.newlyOther j w hje hn hs

/-- `addUnres` on a record whose result is still unset is an `EvolveAt` step. -/
theorem evolveAt_addUnres {g : List FxnRec} {i : Nat} (ns : List String)
    (hw : wcsOf g i = none) : EvolveAt g (addUnres g i ns) i where
  len := length_addUnres ..
  stable := fun j => coreOf_addUnres g i ns j
  frozen := fun j w h => (wcsOf_addUnres ..).trans h
  frozenU := fun j w h => by
    have hji : j ≠ i := fun hji => by rw [hji, hw] at h; exact absurd h (by simp)
    exact unresolvedOf_addUnres_ne ns (fun hij => hji hij.symm)
  quietX := fun j hne _ _ => unresolvedOf_addUnres_ne ns (fun hij => hne hij.symm)
  newlyEx := fun w hn hs => by rw [wcsOf_addUnres] at hs; rw [hn] at hs; exact absurd hs (by simp)
  newlyOther := fun j w _ hn hs => by
    rw [wcsOf_addUnres] at hs
    rw [hn] at hs
    exact absurd hs (by simp)

/-- Setting an unset (or already-`Unbounded`) record to `Unbounded` is an
`EvolveAt` step at that record. -/
theorem evolveAt_setWcs_unb {g : List FxnRec} {i : Nat}
    (hw : wcsOf g i = none ∨ wcsOf g i = some Wcs.unbounded) :
    EvolveAt g (setWcs g i Wcs.unbounded) i where
  len := length_setWcs ..
  stable := fun j => coreOf_setWcs g i Wcs.unbounded j
  frozen := fun j w h => by
    by_cases hji : j = i
    · subst hji
      rcases hw with hw | hw
      · rw [hw] at h; exact absurd h (by simp)
      · rw [hw] at h
        rw [wcsOf_setWcs_self _ (wcsOf_isSome_lt hw), ← Option.some.inj h]
    · rw [wcsOf_setWcs_ne _ (fun hij => hji hij.symm)]
      exact h
  frozenU := fun j w h => unresolvedOf_setWcs ..
  quietX := fun j hne _ _ => unresolvedOf_setWcs ..
  newlyEx := fun w hn hs => by
    rcases hw with hw | hw
    · by_cases hi : i < g.length
      · rw [wcsOf_setWcs_self _ hi] at hs
        exact (Option.some.inj hs).symm
      · unfold setWcs at hs
        have hnone : g[i]? = none := by
          cases hg : g[i]? with
          | none => rfl
          | some f => exact absurd ((List.getElem?_eq_some.mp hg).1) hi
        rw [hnone] at hs
        rw [hn] at hs
        exact absurd hs (by simp)
    · rw [hw] at hn; exact absurd hn (by simp)
  newlyOther := fun j w hne hn hs => by
    rw [wcsOf_setWcs_ne _ (fun hij => hne hij.symm)] at hs
    rw [hn] at hs
    exact absurd hs (by simp)

theorem evolveAt_refl (g : List FxnRec) (ex : Nat) : EvolveAt g g ex where
  len := Eq.refl _
  stable := fun _ => Eq.refl _
  frozen := fun _ _ h => h
  frozenU := fun _ _ _ => Eq.refl _
  quietX := fun _ _ _ _ => Eq.refl _
  newlyEx := fun w hn hs => absurd (hn ▸ hs) (by simp)
  newlyOther := fun j w _ hn hs => absurd (hn ▸ hs) (by simp)

theorem wcsOf_none_of_not_isSome {g : List FxnRec} {i : Nat} {f : FxnRec}
    (hg : g[i]? = some f) (hns : f.wcs.isSome = false) : wcsOf g i = none := by
  unfold wcsOf
  rw [hg]
  exact Option.not_isSome_iff_eq_none.mp (by simp [hns])

/-- Postcondition of the callee loop of `calc_wcs`: a loop prefix is an
`EvolveAt` step; an ancestor newly set forces the early exit; the early exit
leaves the target `Unbounded`; a completed loop leaves target and ancestors
untouched, every processed callee `Bounded`, `call_max` the iterated
maximum, and the target's unresolved set the union of its own set with
those of the processed callees. -/
theorem wcsLoop_post
    (recFn : List FxnRec → Nat → List Nat → Option (List FxnRec))
    (hrec : ∀ g c ps g', recFn g c ps = some g' → PostW g g' c ps)
    {i : Nat} {ps : List Nat} :
    ∀ (calls : List Nat) (g : List FxnRec) (cm : Nat) (g' : List FxnRec) (res : Option Nat),
      i < g.length → wcsOf g i = none →
      wcsLoop recFn i ps g calls cm = some (g', res) →
      EvolveAt g g' i ∧
      (∀ j ∈ ps, wcsOf g j = none → ∀ w, wcsOf g' j = some w →
        w = Wcs.unbounded ∧ res = none) ∧
      (res = none → wcsOf g' i = some Wcs.unbounded) ∧
      (∀ cm', res = some cm' →
        (∀ j, j = i ∨ j ∈ ps → wcsOf g' j = wcsOf g j) ∧
        (∀ c ∈ calls, ∃ m, wcsOf g' c = some (Wcs.bounded m)) ∧
        cm' = (calls.map (bvalOf g')).foldl max cm ∧
        (∀ x, x ∈ unresolvedOf g' i ↔
          x ∈ unresolvedOf g i ∨ ∃ c ∈ calls, x ∈ unresolvedOf g' c)) := by
  intro calls
  induction calls with
  | nil =>
    intro g cm g' res hi hw0 h
    rw [wcsLoop] at h
    simp only [Option.some.injEq, Prod.mk.injEq] at h
    obtain ⟨rfl, rfl⟩ := h
    refine ⟨evolveAt_refl g i, ?_, ?_, ?_⟩
    · intro j _ hn w hs
      rw [hn] at hs
      exact absurd hs (by simp)
    · intro h0
      exact absurd h0 (by simp)
    · intro cm' hcm
      refine ⟨fun j _ => Eq.refl _, fun c hc => absurd hc (by simp), ?_, ?_⟩
      · simpa using (Option.some.inj hcm).symm
      · intro x
        simp
  | cons c rest ihl =>
    intro g cm g' res hi hw0 h
    rw [wcsLoop] at h
    split at h
    · exact absurd h (by simp)
    · rename_i g1 hr1
      obtain ⟨hev1, ⟨w1, hw1⟩, hanc1⟩ := hrec g c (ps ++ [i]) g1 hr1
      have hEA1 : EvolveAt g g1 i :=
        evolveAt_of_evolve hev1
          (fun w hn hs =>
            (hanc1 i (List.mem_append_right ps (List.mem_singleton.mpr rfl)) hn w hs).1)
      split at h
      · -- callee unbounded: early return
        rename_i hwc
        simp only [Option.some.injEq, Prod.mk.injEq] at h
        obtain ⟨rfl, rfl⟩ := h
        have hi1 : i < g1.length := hev1.len ▸ hi
        have hwi1 : wcsOf g1 i = none ∨ wcsOf g1 i = some Wcs.unbounded := by
          cases hm : wcsOf g1 i with
          | none => exact Or.inl rfl
          | some w =>
            refine Or.inr ?_
            rw [← (hanc1 i (List.mem_append_right ps (List.mem_singleton.mpr rfl)) hw0 w hm).1]
        have hEA2 : EvolveAt g1 (setWcs g1 i Wcs.unbounded) i := evolveAt_setWcs_unb hwi1
        have hself : wcsOf (setWcs g1 i Wcs.unbounded) i = some Wcs.unbounded :=
          wcsOf_setWcs_self _ hi1
        refine ⟨evolveAt_trans hEA1 hEA2, ?_, fun _ => hself, ?_⟩
        · intro j hj hn w hs
          by_cases hji : j = i
          · subst hji
            rw [hself] at hs
            exact ⟨(Option.some.inj hs).symm, rfl⟩
          · rw [wcsOf_setWcs_ne _ (fun hij => hji hij.symm)] at hs
            exact ⟨(hanc1 j (List.mem_append_left _ hj) hn w hs).1, rfl⟩
        · intro cm' hcm
          exact absurd hcm (by simp)
      · -- callee bounded: continue the loop
        rename_i n hwc
        have hwi1 : wcsOf g1 i = none := by
          cases hm : wcsOf g1 i with
          | none => rfl
          | some w =>
            have h2 :=
              (hanc1 i (List.mem_append_right ps (List.mem_singleton.mpr rfl)) hw0 w hm).2
            rw [hwc] at h2
            exact absurd (Option.some.inj h2) (by simp)
        have hEAa : EvolveAt g1 (addUnres g1 i (unresolvedOf g1 c)) i :=
          evolveAt_addUnres _ hwi1
        have hi2 : i < (addUnres g1 i (unresolvedOf g1 c)).length := by
          rw [length_addUnres]
          exact hev1.len ▸ hi
        have hw2 : wcsOf (addUnres g1 i (unresolvedOf g1 c)) i = none := by
          rw [wcsOf_addUnres]
          exact hwi1
        obtain ⟨hEA3, hanc3, hunb3, hdone3⟩ := ihl _ _ _ _ hi2 hw2 h
        have hg1j : ∀ j, j = i ∨ j ∈ ps → wcsOf g1 j = wcsOf g j := by
          intro j hj
          rcases hj with rfl | hj
          · rw [hwi1, hw0]
          · cases hgj : wcsOf g j with
            | some w => exact hev1.frozen j w hgj
            | none =>
              cases hm : wcsOf g1 j with
              | none => rfl
              | some w =>
                have h2 := (hanc1 j (List.mem_append_left _ hj) hgj w hm).2
                rw [hwc] at h2
                exact absurd (Option.some.inj h2) (by simp)
        refine ⟨evolveAt_trans hEA1 (evolveAt_trans hEAa hEA3), ?_, hunb3, ?_⟩
        · intro j hj hn w hs
          have hn1 : wcsOf g1 j = none := (hg1j j (Or.inr hj)).trans hn
          have hn2 : wcsOf (addUnres g1 i (unresolvedOf g1 c)) j = none := by
            rw [wcsOf_addUnres]
            exact hn1
          exact hanc3 j hj hn2 w hs
        · intro cm' hcm
          obtain ⟨hkeep3, hcal3, hmax3, huneq3⟩ := hdone3 cm' hcm
          have hc2 : wcsOf (addUnres g1 i (unresolvedOf g1 c)) c = some (Wcs.bounded n) := by
            rw [wcsOf_addUnres]
            exact hwc
          have hcg' : wcsOf g' c = some (Wcs.bounded n) := hEA3.frozen c _ hc2
          refine ⟨?_, ?_, ?_, ?_⟩
          · intro j hj
            have h4 : wcsOf (addUnres g1 i (unresolvedOf g1 c)) j = wcsOf g1 j :=
              wcsOf_addUnres ..
            rw [hkeep3 j hj, h4, hg1j j hj]
          · intro c' hc'
            rcases List.mem_cons.mp hc' with rfl | hc'
            · exact ⟨n, hcg'⟩
            · exact hcal3 c' hc'
          · rw [List.map_cons, List.foldl_cons, hmax3]
            have hbv : bvalOf g' c = n := by
              unfold bvalOf
              rw [hcg']
            rw [hbv]
          · intro x
            have huc : unresolvedOf g' c = unresolvedOf g1 c :=
              (hEA3.frozenU c _ hc2).trans (hEAa.frozenU c _ hwc)
            have hu2 : ∀ y, y ∈ unresolvedOf (addUnres g1 i (unresolvedOf g1 c)) i ↔
                y ∈ unresolvedOf g1 i ∨ y ∈ unresolvedOf g1 c :=
              unresolvedOf_addUnres_self _ (hev1.len ▸ hi)
            have hu1 : unresolvedOf g1 i = unresolvedOf g i := hev1.quiet i hw0 hwi1
            rw [huneq3 x, hu2 x, hu1]
            constructor
            · rintro ((hx | hx) | ⟨c', hc', hx⟩)
              · exact Or.inl hx
              · exact Or.inr ⟨c, List.mem_cons_self .., by rw [huc]; exact hx⟩
              · exact Or.inr ⟨c', List.mem_cons_of_mem _ hc', hx⟩
            · rintro (hx | ⟨c', hc', hx⟩)
              · exact Or.inl (Or.inl hx)
              · rcases List.mem_cons.mp hc' with rfl | hc'
                · refine Or.inl (Or.inr ?_)
                  rw [← huc]
                  exact hx
                · exact Or.inr ⟨c', hc', hx⟩
      · -- callee result missing (impossible in a successful run)
        exact absurd h (by simp)

/-- Master postcondition: every successful `calc_wcs` call satisfies
`PostW`. -/
theorem calcWcs_post :
    ∀ (fuel : Nat) (g : List FxnRec) (i : Nat) (ps : List Nat) (g' : List FxnRec),
      calcWcs fuel g i ps = some g' → PostW g g' i ps := by
  intro fuel
  induction fuel with
  | zero =>
    intro g i ps g' h
    exact absurd h (by simp [calcWcs])
  | succ fuel ih =>
    intro g i ps g' h
    have h' : calcWcsF (calcWcs fuel) g i ps = some g' := h
    unfold calcWcsF at h'
    split at h'
    · exact absurd h' (by simp)
    · rename_i f hg
      have hi : i < g.length := (List.getElem?_eq_some.mp hg).1
      have hwcs : wcsOf g i = f.wcs := by
        unfold wcsOf
        rw [hg]
      split at h'
      · -- memoised: 'wcs' already in the dict
        rename_i hsome
        obtain rfl : g = g' := Option.some.inj h'
        obtain ⟨w, hw⟩ := Option.isSome_iff_exists.mp hsome
        refine ⟨evolve_refl g, ⟨w, by rw [hwcs, hw]⟩, ?_⟩
        intro j _ hn w' hs
        rw [hn] at hs
        exact absurd hs (by simp)
      · rename_i hnsome
        have hw0 : wcsOf g i = none := by
          rw [hwcs]
          exact Option.not_isSome_iff_eq_none.mp (by simpa using hnsome)
        split at h'
        · -- pointer call: finalise Unbounded
          obtain rfl : setWcs g i Wcs.unbounded = g' := Option.some.inj h'
          have hself : wcsOf (setWcs g i Wcs.unbounded) i = some Wcs.unbounded :=
            wcsOf_setWcs_self _ hi
          refine ⟨evolveAt_toEvolve (evolveAt_setWcs_unb (Or.inl hw0)) hw0 hself,
            ⟨Wcs.unbounded, hself⟩, ?_⟩
          intro j _ hn w hs
          by_cases hji : j = i
          · subst hji
            rw [hself] at hs
            exact ⟨(Option.some.inj hs).symm, hself⟩
          · rw [wcsOf_setWcs_ne _ (fun hij => hji hij.symm)] at hs
            rw [hn] at hs
            exact absurd hs (by simp)
        · split at h'
          · -- recursion: i is on the ancestor path
            obtain rfl : setWcs g i Wcs.unbounded = g' := Option.some.inj h'
            have hself : wcsOf (setWcs g i Wcs.unbounded) i = some Wcs.unbounded :=
              wcsOf_setWcs_self _ hi
            refine ⟨evolveAt_toEvolve (evolveAt_setWcs_unb (Or.inl hw0)) hw0 hself,
              ⟨Wcs.unbounded, hself⟩, ?_⟩
            intro j _ hn w hs
            by_cases hji : j = i
            · subst hji
              rw [hself] at hs
              exact ⟨(Option.some.inj hs).symm, hself⟩
            · rw [wcsOf_setWcs_ne _ (fun hij => hji hij.symm)] at hs
              rw [hn] at hs
              exact absurd hs (by simp)
          · rename_i hnmem
            split at h'
            · exact absurd h' (by simp)
            · -- early return: some callee was unbounded
              rename_i g2 hl
              obtain rfl : g2 = g' := Option.some.inj h'
              obtain ⟨hEA, hanc, hunb, _⟩ :=
                wcsLoop_post (calcWcs fuel) ih f.rCalls g 0 g2 none hi hw0 hl
              have hself : wcsOf g2 i = some Wcs.unbounded := hunb rfl
              refine ⟨evolveAt_toEvolve hEA hw0 hself, ⟨Wcs.unbounded, hself⟩, ?_⟩
              intro j hj hn w hs
              exact ⟨(hanc j hj hn w hs).1, hself⟩
            · -- the loop completed: finalise Bounded
              rename_i g2 cm hl
              split at h'
              · exact absurd h' (by simp)
              · rename_i f2 hg2
                obtain rfl :
                    setWcs g2 i (Wcs.bounded (combineW f2.localStack f2.clobSp cm)) = g' :=
                  Option.some.inj h'
                obtain ⟨hEA, hanc, _, hdone⟩ :=
                  wcsLoop_post (calcWcs fuel) ih f.rCalls g 0 g2 (some cm) hi hw0 hl
                obtain ⟨hkeep, hcal, hmax, huneq⟩ := hdone cm rfl
                have hi2 : i < g2.length := hEA.len ▸ hi
                have hw2 : wcsOf g2 i = none := (hkeep i (Or.inl rfl)).trans hw0
                have hself :
                    wcsOf (setWcs g2 i (Wcs.bounded (combineW f2.localStack f2.clobSp cm))) i
                      = some (Wcs.bounded (combineW f2.localStack f2.clobSp cm)) :=
                  wcsOf_setWcs_self _ hi2
                have hrc : rCallsOf g i = f.rCalls := by
                  unfold rCallsOf
                  rw [hg]
                have hfz2 : ∀ c w, wcsOf g2 c = some w →
                    wcsOf (setWcs g2 i (Wcs.bounded (combineW f2.localStack f2.clobSp cm))) c
                      = some w := by
                  intro c w hcw
                  by_cases hci : c = i
                  · subst hci
                    rw [hw2] at hcw
                    exact absurd hcw (by simp)
                  · rw [wcsOf_setWcs_ne _ (fun hic => hci hic.symm)]
                    exact hcw
                refine ⟨?_, ⟨_, hself⟩, ?_⟩
                · refine ⟨(length_setWcs ..).trans hEA.len,
                    fun j => (coreOf_setWcs ..).trans (hEA.stable j), ?_, ?_, ?_, ?_⟩
                  · -- frozen
                    intro j w hw
                    by_cases hji : j = i
                    · subst hji
                      rw [hw0] at hw
                      exact absurd hw (by simp)
                    · rw [wcsOf_setWcs_ne _ (fun hij => hji hij.symm)]
                      exact hEA.frozen j w hw
                  · -- frozenU
                    intro j w hw
                    rw [unresolvedOf_setWcs]
                    exact hEA.frozenU j w hw
                  · -- quiet
                    intro j hn hn2
                    by_cases hji : j = i
                    · subst hji
                      rw [hself] at hn2
                      exact absurd hn2 (by simp)
                    · rw [wcsOf_setWcs_ne _ (fun hij => hji hij.symm)] at hn2
                      rw [unresolvedOf_setWcs]
                      exact hEA.quietX j hji hn hn2
                  · -- newly
                    intro j w hn hs
                    by_cases hji : j = i
                    · subst hji
                      rw [hself] at hs
                      refine Or.inr ⟨combineW f2.localStack f2.clobSp cm,
                        (Option.some.inj hs).symm, ?_, ?_, ?_⟩
                      · -- every callee Bounded
                        intro c hc
                        rw [hrc] at hc
                        obtain ⟨m, hm⟩ := hcal c hc
                        exact ⟨m, hfz2 c _ hm⟩
                      · -- the combination formula
                        have hlo : f2.localStack = localOf g j := by
                          have h5 : localOf g2 j = f2.localStack := by
                            unfold localOf
                            rw [hg2]
                          rw [← h5]
                          exact localOf_of_stable hEA.stable j
                        have hcl : f2.clobSp = clobOf g j := by
                          have h5 : clobOf g2 j = f2.clobSp := by
                            unfold clobOf
                            rw [hg2]
                          rw [← h5]
                          exact clobOf_of_stable hEA.stable j
                        have hmap : (rCallsOf g j).map
                            (bvalOf (setWcs g2 j
                              (Wcs.bounded (combineW f2.localStack f2.clobSp cm))))
                            = (rCallsOf g j).map (bvalOf g2) := by
                          refine List.map_congr_left ?_
                          intro c hc
                          rw [hrc] at hc
                          obtain ⟨m, hm⟩ := hcal c hc
                          unfold bvalOf
                          rw [hm, hfz2 c _ hm]
                        rw [hmap, hlo, hcl, hmax, hrc]
                        unfold listMax
                        rfl
                      · -- the unresolved-set equation
                        intro x
                        rw [unresolvedOf_setWcs, huneq x, hrc]
                        constructor
                        · rintro (hx | ⟨c, hc, hx⟩)
                          · exact Or.inl hx
                          · refine Or.inr ⟨c, hc, ?_⟩
                            rw [unresolvedOf_setWcs]
                            exact hx
                        · rintro (hx | ⟨c, hc, hx⟩)
                          · exact Or.inl hx
                          · rw [unresolvedOf_setWcs] at hx
                            exact Or.inr ⟨c, hc, hx⟩
                    · rw [wcsOf_setWcs_ne _ (fun hij => hji hij.symm)] at hs
                      rcases hEA.newlyOther j w hji hn hs with hu | ⟨n, hwn, hp⟩
                      · exact Or.inl hu
                      · exact Or.inr ⟨n, hwn,
                          boundedPack_post hp hfz2
                            (fun c w hcw => unresolvedOf_setWcs ..)
                            (unresolvedOf_setWcs ..)⟩
                · -- ancestors: nothing on the path is touched by a completed loop
                  intro j hj hn w hs
                  have hji : j ≠ i := fun hji => hnmem (hji ▸ hj)
                  rw [wcsOf_setWcs_ne _ (fun hij => hji hij.symm)] at hs
                  have h2 := (hanc j hj hn w hs).2
                  exact absurd h2 (by simp)

theorem calcWcsF_eq (recFn : List FxnRec → Nat → List Nat → Option (List FxnRec))
    (g : List FxnRec) (i : Nat) (ps : List Nat) (f : FxnRec) (hg : g[i]? = some f) :
    calcWcsF recFn g i ps =
      if f.wcs.isSome then some g
      else if f.hasPtrCall then some (setWcs g i Wcs.unbounded)
      else if i ∈ ps then some (setWcs g i Wcs.unbounded)
      else
        match wcsLoop recFn i ps g f.rCalls 0 with
        | none => none
        | some (g2, none) => some g2
        | some (g2, some cm) =>
          match g2[i]? with
          | none => none
          | some f2 => some (setWcs g2 i (Wcs.bounded (combineW f2.localStack f2.clobSp cm))) := by
  unfold calcWcsF
  rw [hg]

theorem wcsLoop_cons_eq (recFn : List FxnRec → Nat → List Nat → Option (List FxnRec))
    (i : Nat) (ps : List Nat) (g : List FxnRec) (c : Nat) (rest : List Nat) (cm : Nat)
    (g1 : List FxnRec) (h : recFn g c (ps ++ [i]) = some g1) :
    wcsLoop recFn i ps g (c :: rest) cm =
      match wcsOf g1 c with
      | some Wcs.unbounded => some (setWcs g1 i Wcs.unbounded, none)
      | some (Wcs.bounded n) =>
        wcsLoop recFn i ps (addUnres g1 i (unresolvedOf g1 c)) rest (max cm n)
      | none => none := by
  rw [wcsLoop, h]

theorem wfArena_of_stable {g g' : List FxnRec} (hlen : g'.length = g.length)
    (hs : ∀ j, coreOf g' j = coreOf g j) (hw : WfArena g) : WfArena g' := by
  intro i hi c hc
  rw [hlen]
  rw [rCallsOf_of_stable hs] at hc
  exact hw i (hlen ▸ hi) c hc

theorem nodup_lt_length_le {ps : List Nat} {n : Nat} (hnd : ps.Nodup)
    (hlt : ∀ p ∈ ps, p < n) : ps.length ≤ n := by
  have h1 : ps.toFinset.card = ps.length := List.toFinset_card_of_nodup hnd
  have h2 : ps.toFinset ⊆ Finset.range n := by
    intro p hp
    exact Finset.mem_range.mpr (hlt p (List.mem_toFinset.mp hp))
  calc ps.length = ps.toFinset.card := h1.symm
    _ ≤ (Finset.range n).card := Finset.card_le_card h2
    _ = n := Finset.card_range n

/-- With fuel exceeding the number of records not yet on the ancestor path,
`calc_wcs` cannot run out (in Python it terminates for the same reason:
`parents` grows strictly and holds pairwise-distinct records). -/
theorem calcWcs_total :
    ∀ (fuel : Nat) (g : List FxnRec) (i : Nat) (ps : List Nat),
      WfArena g → ps.Nodup → (∀ p ∈ ps, p < g.length) → i < g.length →
      g.length < fuel + ps.length →
      ∃ g', calcWcs fuel g i ps = some g' := by
  intro fuel
  induction fuel with
  | zero =>
    intro g i ps _ hnd hlt _ hfuel
    rw [Nat.zero_add] at hfuel
    exact absurd hfuel (Nat.not_lt.mpr (nodup_lt_length_le hnd hlt))
  | succ fuel ih =>
    intro g i ps hwf hnd hlt hi hfuel
    show ∃ g', calcWcsF (calcWcs fuel) g i ps = some g'
    rw [calcWcsF_eq (calcWcs fuel) g i ps g[i] (List.getElem?_eq_getElem hi)]
    by_cases hsome : g[i].wcs.isSome
    · rw [if_pos hsome]
      exact ⟨g, rfl⟩
    · rw [if_neg hsome]
      by_cases hptr : g[i].hasPtrCall
      · rw [if_pos hptr]
        exact ⟨_, rfl⟩
      · rw [if_neg hptr]
        by_cases hmem : i ∈ ps
        · rw [if_pos hmem]
          exact ⟨_, rfl⟩
        · rw [if_neg hmem]
          have hw0 : wcsOf g i = none := by
            unfold wcsOf
            rw [List.getElem?_eq_getElem hi]
            exact Option.not_isSome_iff_eq_none.mp (by simpa using hsome)
          -- the callee loop always succeeds
          have loop : ∀ (calls : List Nat) (gx : List FxnRec) (cm : Nat),
              WfArena gx → gx.length = g.length → (∀ c ∈ calls, c < gx.length) →
              wcsOf gx i = none →
              ∃ gy res, wcsLoop (calcWcs fuel) i ps gx calls cm = some (gy, res) := by
            intro calls
            induction calls with
            | nil =>
              intro gx cm _ _ _ _
              exact ⟨gx, some cm, by rw [wcsLoop]⟩
            | cons c rest ihl =>
              intro gx cm hwfx hlenx hcx hw0x
              have hcall : ∃ g1, calcWcs fuel gx c (ps ++ [i]) = some g1 := by
                refine ih gx c (ps ++ [i]) hwfx ?_ ?_ (hcx c (List.mem_cons_self ..)) ?_
                · rw [List.nodup_append]
                  refine ⟨hnd, List.nodup_singleton i, ?_⟩
                  intro a ha hai
                  rw [List.mem_singleton.mp hai] at ha
                  exact hmem ha
                · intro p hp
                  rcases List.mem_append.mp hp with hp | hp
                  · rw [hlenx]
                    exact hlt p hp
                  · rw [List.mem_singleton.mp hp, hlenx]
                    exact hi
                · rw [List.length_append, List.length_singleton, hlenx]
                  omega
              obtain ⟨g1, hg1⟩ := hcall
              obtain ⟨hev1, ⟨w1, hw1⟩, hanc1⟩ := calcWcs_post fuel gx c (ps ++ [i]) g1 hg1
              rw [wcsLoop_cons_eq (calcWcs fuel) i ps gx c rest cm g1 hg1]
              cases w1 with
              | unbounded =>
                rw [hw1]
                exact ⟨_, _, rfl⟩
              | bounded n =>
                rw [hw1]
                have hwi1 : wcsOf g1 i = none := by
                  cases hm : wcsOf g1 i with
                  | none => rfl
                  | some w =>
                    have h2 :=
                      (hanc1 i (List.mem_append_right ps (List.mem_singleton.mpr rfl))
                        hw0x w hm).2
                    rw [hw1] at h2
                    exact absurd (Option.some.inj h2) (by simp)
                refine ihl (addUnres g1 i (unresolvedOf g1 c)) (max cm n) ?_ ?_ ?_ ?_
                · exact wfArena_of_stable (length_addUnres ..)
                    (fun j => coreOf_addUnres g1 i _ j)
                    (wfArena_of_stable hev1.len hev1.stable hwfx)
                · rw [length_addUnres, hev1.len, hlenx]
                · intro c' hc'
                  rw [length_addUnres, hev1.len]
                  exact hcx c' (List.mem_cons_of_mem _ hc')
                · rw [wcsOf_addUnres]
                  exact hwi1
          have hcalls : ∀ c ∈ g[i].rCalls, c < g.length := by
            intro c hc
            refine hwf i hi c ?_
            unfold rCallsOf
            rw [List.getElem?_eq_getElem hi]
            exact hc
          obtain ⟨g2, res, hl⟩ := loop g[i].rCalls g 0 hwf rfl hcalls hw0
          rw [hl]
          cases res with
          | none => exact ⟨g2, rfl⟩
          | some cm =>
            obtain ⟨hEA, _, _, _⟩ :=
              wcsLoop_post (calcWcs fuel) (calcWcs_post fuel) g[i].rCalls g 0 g2 (some cm)
                hi hw0 hl
            have hi2 : i < g2.length := hEA.len ▸ hi
            have hg2 : g2[i]? = some g2[i] := List.getElem?_eq_getElem hi2
            refine ⟨setWcs g2 i (Wcs.bounded (combineW g2[i].localStack g2[i].clobSp cm)), ?_⟩
            show (match g2[i]? with
                  | none => none
                  | some f2 =>
                    some (setWcs g2 i (Wcs.bounded (combineW f2.localStack f2.clobSp cm)))) =
              some (setWcs g2 i (Wcs.bounded (combineW g2[i].localStack g2[i].clobSp cm)))
            rw [hg2]

theorem ptrOf_eq {g : List FxnRec} {i : Nat} {f : FxnRec} (hg : g[i]? = some f) :
    ptrOf g i = f.hasPtrCall := by
  unfold ptrOf
  rw [hg]

theorem rCallsOf_eq {g : List FxnRec} {i : Nat} {f : FxnRec} (hg : g[i]? = some f) :
    rCallsOf g i = f.rCalls := by
  unfold rCallsOf
  rw [hg]

theorem wcsOf_eq {g : List FxnRec} {i : Nat} {f : FxnRec} (hg : g[i]? = some f) :
    wcsOf g i = f.wcs := by
  unfold wcsOf
  rw [hg]

theorem unresolvedOf_eq {g : List FxnRec} {i : Nat} {f : FxnRec} (hg : g[i]? = some f) :
    unresolvedOf g i = f.unresolvedCalls := by
  unfold unresolvedOf
  rw [hg]

theorem noPtr_of_stable {g g' : List FxnRec} (hlen : g'.length = g.length)
    (hs : ∀ j, coreOf g' j = coreOf g j) (h : NoPtr g) : NoPtr g' := by
  intro j hj
  rw [ptrOf_of_stable hs]
  exact h j (hlen ▸ hj)

theorem rankOk_of_stable {g g' : List FxnRec} {rank : Nat → Nat}
    (hlen : g'.length = g.length) (hs : ∀ j, coreOf g' j = coreOf g j)
    (h : RankOk g rank) : RankOk g' rank := by
  intro j hj c hc
  rw [rCallsOf_of_stable hs] at hc
  exact h j (hlen ▸ hj) c hc

theorem reach_of_stable {g g' : List FxnRec}
    (hs : ∀ j, coreOf g' j = coreOf g j) {a b : Nat} (h : Reach g' a b) : Reach g a b := by
  induction h with
  | single hc => exact Reach.single (rCallsOf_of_stable hs _ ▸ hc)
  | head hc _ ih => exact Reach.head (rCallsOf_of_stable hs _ ▸ hc) ih

theorem reach_trans {g : List FxnRec} {a b c : Nat}
    (h1 : Reach g a b) (h2 : Reach g b c) : Reach g a c := by
  induction h1 with
  | single hc => exact Reach.head hc h2
  | head hc _ ih => exact Reach.head hc (ih h2)

theorem reach_elim {g : List FxnRec} {i j : Nat} (h : Reach g i j) :
    ∃ c ∈ rCallsOf g i, c = j ∨ Reach g c j := by
  cases h with
  | single hc => exact ⟨_, hc, Or.inl rfl⟩
  | head hc hr => exact ⟨_, hc, Or.inr hr⟩

theorem noUnb_setWcs_bounded {g : List FxnRec} {i n : Nat} (h : NoUnb g) :
    NoUnb (setWcs g i (Wcs.bounded n)) := by
  intro j
  by_cases hji : j = i
  · subst hji
    by_cases hj : j < g.length
    · rw [wcsOf_setWcs_self _ hj]
      simp
    · unfold setWcs
      have hnone : g[j]? = none := by
        cases hgj : g[j]? with
        | none => rfl
        | some f => exact absurd (List.getElem?_eq_some.mp hgj).1 hj
      rw [hnone]
      exact h j
  · rw [wcsOf_setWcs_ne _ (fun hij => hji hij.symm)]
    exact h j

/-- In a pointer-free arena whose call edges admit a strictly decreasing
rank, no `calc_wcs` call ever produces an `Unbounded` result. -/
theorem calcWcs_noUnb :
    ∀ (fuel : Nat) (g : List FxnRec) (i : Nat) (ps : List Nat) (g' : List FxnRec)
      (rank : Nat → Nat),
      calcWcs fuel g i ps = some g' →
      NoPtr g → RankOk g rank → (∀ p ∈ ps, rank i < rank p) →
      NoUnb g → NoUnb g' := by
  intro fuel
  induction fuel with
  | zero =>
    intro g i ps g' rank h
    exact absurd h (by simp [calcWcs])
  | succ fuel ih =>
    intro g i ps g' rank h hptr hrank hpath hunb
    have h' : calcWcsF (calcWcs fuel) g i ps = some g' := h
    unfold calcWcsF at h'
    split at h'
    · exact absurd h' (by simp)
    · rename_i f hg
      have hi : i < g.length := (List.getElem?_eq_some.mp hg).1
      split at h'
      · obtain rfl : g = g' := Option.some.inj h'
        exact hunb
      · rename_i hnsome
        split at h'
        · -- pointer-call branch is impossible in a pointer-free arena
          rename_i hpc
          have h2 : ptrOf g i = false := hptr i hi
          rw [ptrOf_eq hg] at h2
          rw [h2] at hpc
          exact absurd hpc (by simp)
        · split at h'
          · -- ancestor-path branch is impossible under a strict rank
            rename_i hmem
            exact absurd (hpath i hmem) (Nat.lt_irrefl _)
          · rename_i hnptr hnmem
            have hw0 : wcsOf g i = none := by
              unfold wcsOf
              rw [hg]
              exact Option.not_isSome_iff_eq_none.mp (by simpa using hnsome)
            -- the callee loop preserves the invariant
            have loop : ∀ (calls : List Nat) (gx : List FxnRec) (cm : Nat)
                (gy : List FxnRec) (res : Option Nat),
                wcsLoop (calcWcs fuel) i ps gx calls cm = some (gy, res) →
                gx.length = g.length →
                NoPtr gx → RankOk gx rank → NoUnb gx →
                (∀ c ∈ calls, rank c < rank i) →
                NoUnb gy := by
              intro calls
              induction calls with
              | nil =>
                intro gx cm gy res hx _ _ _ hunbx _
                rw [wcsLoop] at hx
                simp only [Option.some.injEq, Prod.mk.injEq] at hx
                obtain ⟨rfl, _⟩ := hx
                exact hunbx
              | cons c rest ihl =>
                intro gx cm gy res hx hlenx hptrx hrankx hunbx hcx
                rw [wcsLoop] at hx
                split at hx
                · exact absurd hx (by simp)
                · rename_i g1 hg1
                  have hpath1 : ∀ p ∈ ps ++ [i], rank c < rank p := by
                    intro p hp
                    rcases List.mem_append.mp hp with hp | hp
                    · exact Nat.lt_trans (hcx c (List.mem_cons_self ..)) (hpath p hp)
                    · rw [List.mem_singleton.mp hp]
                      exact hcx c (List.mem_cons_self ..)
                  have hunb1 : NoUnb g1 := ih gx c (ps ++ [i]) g1 rank hg1 hptrx hrankx hpath1 hunbx
                  obtain ⟨hev1, _, _⟩ := calcWcs_post fuel gx c (ps ++ [i]) g1 hg1
                  split at hx
                  · -- an unbounded callee contradicts the invariant
                    rename_i hwc
                    exact absurd hwc (hunb1 c)
                  · rename_i n hwc
                    refine ihl _ _ _ _ hx ?_ ?_ ?_ ?_ (fun c' hc' => hcx c' (List.mem_cons_of_mem _ hc'))
                    · rw [length_addUnres, hev1.len, hlenx]
                    · exact noPtr_of_stable (length_addUnres ..)
                        (fun j => coreOf_addUnres g1 i _ j)
                        (noPtr_of_stable hev1.len hev1.stable hptrx)
                    · exact rankOk_of_stable (length_addUnres ..)
                        (fun j => coreOf_addUnres g1 i _ j)
                        (rankOk_of_stable hev1.len hev1.stable hrankx)
                    · intro j
                      rw [wcsOf_addUnres]
                      exact hunb1 j
                  · exact absurd hx (by simp)
            have hcallsr : ∀ c ∈ f.rCalls, rank c < rank i := by
              intro c hc
              refine hrank i hi c ?_
              unfold rCallsOf
              rw [hg]
              exact hc
            split at h'
            · exact absurd h' (by simp)
            · -- early return (an unbounded callee); still no Bounded overwrite
              rename_i g2 hl
              obtain rfl : g2 = g' := Option.some.inj h'
              exact loop f.rCalls g 0 g2 none hl rfl hptr hrank hunb hcallsr
            · rename_i g2 cm hl
              split at h'
              · exact absurd h' (by simp)
              · rename_i f2 hg2
                obtain rfl :
                    setWcs g2 i (Wcs.bounded (combineW f2.localStack f2.clobSp cm)) = g' :=
                  Option.some.inj h'
                exact noUnb_setWcs_bounded
                  (loop f.rCalls g 0 g2 (some cm) hl rfl hptr hrank hunb hcallsr)

theorem ptrInv_setWcs_unb {g : List FxnRec} {i : Nat} (h : PtrInv g) :
    PtrInv (setWcs g i Wcs.unbounded) := by
  intro j n hpj
  rw [ptrOf_of_stable (fun k => coreOf_setWcs g i Wcs.unbounded k)] at hpj
  by_cases hji : j = i
  · subst hji
    by_cases hj : j < g.length
    · rw [wcsOf_setWcs_self _ hj]
      simp
    · unfold setWcs
      have hnone : g[j]? = none := by
        cases hgj : g[j]? with
        | none => rfl
        | some f => exact absurd (List.getElem?_eq_some.mp hgj).1 hj
      rw [hnone]
      exact h j n hpj
  · rw [wcsOf_setWcs_ne _ (fun hij => hji hij.symm)]
    exact h j n hpj

/-- A record with a pointer call is never assigned a `Bounded` result. -/
theorem calcWcs_ptrInv :
    ∀ (fuel : Nat) (g : List FxnRec) (i : Nat) (ps : List Nat) (g' : List FxnRec),
      calcWcs fuel g i ps = some g' → PtrInv g → PtrInv g' := by
  intro fuel
  induction fuel with
  | zero =>
    intro g i ps g' h
    exact absurd h (by simp [calcWcs])
  | succ fuel ih =>
    intro g i ps g' h hinv
    have h' : calcWcsF (calcWcs fuel) g i ps = some g' := h
    unfold calcWcsF at h'
    split at h'
    · exact absurd h' (by simp)
    · rename_i f hg
      have hi : i < g.length := (List.getElem?_eq_some.mp hg).1
      split at h'
      · obtain rfl : g = g' := Option.some.inj h'
        exact hinv
      · rename_i hnsome
        have hw0 : wcsOf g i = none := by
          rw [wcsOf_eq hg]
          exact Option.not_isSome_iff_eq_none.mp (by simpa using hnsome)
        split at h'
        · obtain rfl : setWcs g i Wcs.unbounded = g' := Option.some.inj h'
          exact ptrInv_setWcs_unb hinv
        · split at h'
          · obtain rfl : setWcs g i Wcs.unbounded = g' := Option.some.inj h'
            exact ptrInv_setWcs_unb hinv
          · rename_i hnptr hnmem
            have loop : ∀ (calls : List Nat) (gx : List FxnRec) (cm : Nat)
                (gy : List FxnRec) (res : Option Nat),
                wcsLoop (calcWcs fuel) i ps gx calls cm = some (gy, res) →
                PtrInv gx → PtrInv gy := by
              intro calls
              induction calls with
              | nil =>
                intro gx cm gy res hx hinvx
                rw [wcsLoop] at hx
                simp only [Option.some.injEq, Prod.mk.injEq] at hx
                obtain ⟨rfl, _⟩ := hx
                exact hinvx
              | cons c rest ihl =>
                intro gx cm gy res hx hinvx
                rw [wcsLoop] at hx
                split at hx
                · exact absurd hx (by simp)
                · rename_i g1 hg1
                  have hinv1 : PtrInv g1 := ih gx c (ps ++ [i]) g1 hg1 hinvx
                  split at hx
                  · simp only [Option.some.injEq, Prod.mk.injEq] at hx
                    obtain ⟨rfl, _⟩ := hx
                    exact ptrInv_setWcs_unb hinv1
                  · rename_i n hwc
                    refine ihl _ _ _ _ hx ?_
                    intro j m hpj
                    rw [ptrOf_of_stable (fun k => coreOf_addUnres g1 i _ k)] at hpj
                    rw [wcsOf_addUnres]
                    exact hinv1 j m hpj
                  · exact absurd hx (by simp)
            split at h'
            · exact absurd h' (by simp)
            · rename_i g2 hl
              obtain rfl : g2 = g' := Option.some.inj h'
              exact loop f.rCalls g 0 g2 none hl hinv
            · rename_i g2 cm hl
              split at h'
              · exact absurd h' (by simp)
              · rename_i f2 hg2
                obtain rfl :
                    setWcs g2 i (Wcs.bounded (combineW f2.localStack f2.clobSp cm)) = g' :=
                  Option.some.inj h'
                have hinv2 : PtrInv g2 := loop f.rCalls g 0 g2 (some cm) hl hinv
                obtain ⟨hEA, _, _, _⟩ :=
                  wcsLoop_post (calcWcs fuel) (calcWcs_post fuel) f.rCalls g 0 g2 (some cm)
                    hi hw0 hl
                intro j m hpj
                rw [ptrOf_of_stable
                  (fun k => coreOf_setWcs g2 i (Wcs.bounded (combineW f2.localStack f2.clobSp cm)) k)]
                  at hpj
                by_cases hji : j = i
                · -- the finalised record passed the pointer-call test
                  subst hji
                  rw [ptrOf_of_stable hEA.stable, ptrOf_eq hg] at hpj
                  exact absurd hpj hnptr
                · rw [wcsOf_setWcs_ne _ (fun hij => hji hij.symm)]
                  exact hinv2 j m hpj

theorem cycInv_setWcs_unb {g : List FxnRec} {i : Nat} (h : CycInv g) :
    CycInv (setWcs g i Wcs.unbounded) := by
  intro j hr n
  have hr2 : Reach g j j := reach_of_stable (fun k => coreOf_setWcs g i Wcs.unbounded k) hr
  by_cases hji : j = i
  · subst hji
    by_cases hj : j < g.length
    · rw [wcsOf_setWcs_self _ hj]
      simp
    · unfold setWcs
      have hnone : g[j]? = none := by
        cases hgj : g[j]? with
        | none => rfl
        | some f => exact absurd (List.getElem?_eq_some.mp hgj).1 hj
      rw [hnone]
      exact h j hr2 n
  · rw [wcsOf_setWcs_ne _ (fun hij => hji hij.symm)]
    exact h j hr2 n

/-- A record on a call cycle is never assigned a `Bounded` result: a
completed callee loop of a record on a cycle is impossible, because its
cycle callee would have had to finalise `Bounded` first. -/
theorem calcWcs_cycInv :
    ∀ (fuel : Nat) (g : List FxnRec) (i : Nat) (ps : List Nat) (g' : List FxnRec),
      calcWcs fuel g i ps = some g' → CycInv g → CycInv g' := by
  intro fuel
  induction fuel with
  | zero =>
    intro g i ps g' h
    exact absurd h (by simp [calcWcs])
  | succ fuel ih =>
    intro g i ps g' h hinv
    have h' : calcWcsF (calcWcs fuel) g i ps = some g' := h
    unfold calcWcsF at h'
    split at h'
    · exact absurd h' (by simp)
    · rename_i f hg
      have hi : i < g.length := (List.getElem?_eq_some.mp hg).1
      split at h'
      · obtain rfl : g = g' := Option.some.inj h'
        exact hinv
      · rename_i hnsome
        have hw0 : wcsOf g i = none := by
          rw [wcsOf_eq hg]
          exact Option.not_isSome_iff_eq_none.mp (by simpa using hnsome)
        split at h'
        · obtain rfl : setWcs g i Wcs.unbounded = g' := Option.some.inj h'
          exact cycInv_setWcs_unb hinv
        · split at h'
          · obtain rfl : setWcs g i Wcs.unbounded = g' := Option.some.inj h'
            exact cycInv_setWcs_unb hinv
          · rename_i hnptr hnmem
            have loop : ∀ (calls : List Nat) (gx : List FxnRec) (cm : Nat)
                (gy : List FxnRec) (res : Option Nat),
                wcsLoop (calcWcs fuel) i ps gx calls cm = some (gy, res) →
                CycInv gx → CycInv gy := by
              intro calls
              induction calls with
              | nil =>
                intro gx cm gy res hx hinvx
                rw [wcsLoop] at hx
                simp only [Option.some.injEq, Prod.mk.injEq] at hx
                obtain ⟨rfl, _⟩ := hx
                exact hinvx
              | cons c rest ihl =>
                intro gx cm gy res hx hinvx
                rw [wcsLoop] at hx
                split at hx
                · exact absurd hx (by simp)
                · rename_i g1 hg1
                  have hinv1 : CycInv g1 := ih gx c (ps ++ [i]) g1 hg1 hinvx
                  split at hx
                  · simp only [Option.some.injEq, Prod.mk.injEq] at hx
                    obtain ⟨rfl, _⟩ := hx
                    exact cycInv_setWcs_unb hinv1
                  · rename_i n hwc
                    refine ihl _ _ _ _ hx ?_
                    intro j hr m
                    have hr2 : Reach g1 j j :=
                      reach_of_stable (fun k => coreOf_addUnres g1 i _ k) hr
                    rw [wcsOf_addUnres]
                    exact hinv1 j hr2 m
                  · exact absurd hx (by simp)
            split at h'
            · exact absurd h' (by simp)
            · rename_i g2 hl
              obtain rfl : g2 = g' := Option.some.inj h'
              exact loop f.rCalls g 0 g2 none hl hinv
            · rename_i g2 cm hl
              split at h'
              · exact absurd h' (by simp)
              · rename_i f2 hg2
                obtain rfl :
                    setWcs g2 i (Wcs.bounded (combineW f2.localStack f2.clobSp cm)) = g' :=
                  Option.some.inj h'
                have hinv2 : CycInv g2 := loop f.rCalls g 0 g2 (some cm) hl hinv
                obtain ⟨hEA, _, _, hdone⟩ :=
                  wcsLoop_post (calcWcs fuel) (calcWcs_post fuel) f.rCalls g 0 g2 (some cm)
                    hi hw0 hl
                obtain ⟨hkeep, hcal, _, _⟩ := hdone cm rfl
                have hw2 : wcsOf g2 i = none := (hkeep i (Or.inl rfl)).trans hw0
                -- i cannot lie on a cycle if its loop completed
                have hnocyc : ¬Reach g2 i i := by
                  intro hr
                  obtain ⟨c, hc, hcase⟩ := reach_elim hr
                  rw [rCallsOf_of_stable hEA.stable, rCallsOf_eq hg] at hc
                  rcases hcase with rfl | hrc
                  · obtain ⟨m, hm⟩ := hcal c hc
                    rw [hw2] at hm
                    exact absurd hm (by simp)
                  · have hcyc : Reach g2 c c :=
                      reach_trans hrc
                        (Reach.single (by
                          rw [rCallsOf_of_stable hEA.stable, rCallsOf_eq hg]
                          exact hc))
                    obtain ⟨m, hm⟩ := hcal c hc
                    exact hinv2 c hcyc m hm
                intro j hr n
                have hr2 : Reach g2 j j :=
                  reach_of_stable
                    (fun k => coreOf_setWcs g2 i (Wcs.bounded (combineW f2.localStack f2.clobSp cm)) k)
                    hr
                by_cases hji : j = i
                · subst hji
                  exact absurd hr2 hnocyc
                · rw [wcsOf_setWcs_ne _ (fun hij => hji hij.symm)]
                  exact hinv2 j hr2 n

theorem calcAll_evolve :
    ∀ (order : List Nat) (fuel : Nat) (g g' : List FxnRec),
      calcAll fuel g order = some g' → Evolve g g' := by
  intro order
  induction order with
  | nil =>
    intro fuel g g' h
    rw [calcAll] at h
    obtain rfl : g = g' := Option.some.inj h
    exact evolve_refl g
  | cons i rest ih =>
    intro fuel g g' h
    rw [calcAll] at h
    split at h
    · exact absurd h (by simp)
    · rename_i g1 h1
      exact evolve_trans (calcWcs_post fuel g i [] g1 h1).1 (ih fuel g1 g' h)

theorem calcAll_total :
    ∀ (order : List Nat) (fuel : Nat) (g : List FxnRec),
      WfArena g → (∀ i ∈ order, i < g.length) → g.length < fuel →
      ∃ g', calcAll fuel g order = some g' := by
  intro order
  induction order with
  | nil =>
    intro fuel g _ _ _
    exact ⟨g, by rw [calcAll]⟩
  | cons i rest ih =>
    intro fuel g hwf hord hfuel
    obtain ⟨g1, h1⟩ :=
      calcWcs_total fuel g i [] hwf List.nodup_nil (by simp)
        (hord i (List.mem_cons_self ..)) (by simpa using hfuel)
    have hev := (calcWcs_post fuel g i [] g1 h1).1
    obtain ⟨g', h2⟩ := ih fuel g1
      (wfArena_of_stable hev.len hev.stable hwf)
      (fun j hj => hev.len ▸ hord j (List.mem_cons_of_mem _ hj))
      (hev.len ▸ hfuel)
    refine ⟨g', ?_⟩
    rw [calcAll, h1]
    exact h2

theorem calcAll_covers :
    ∀ (order : List Nat) (fuel : Nat) (g g' : List FxnRec),
      calcAll fuel g order = some g' → ∀ i ∈ order, ∃ w, wcsOf g' i = some w := by
  intro order
  induction order with
  | nil =>
    intro fuel g g' _ i hi
    exact absurd hi (by simp)
  | cons i rest ih =>
    intro fuel g g' h j hj
    rw [calcAll] at h
    split at h
    · exact absurd h (by simp)
    · rename_i g1 h1
      rcases List.mem_cons.mp hj with rfl | hj
      · obtain ⟨_, ⟨w, hw⟩, _⟩ := calcWcs_post fuel g j [] g1 h1
        exact ⟨w, (calcAll_evolve rest fuel g1 g' h).frozen j w hw⟩
      · exact ih fuel g1 g' h j hj

theorem calcAll_noUnb :
    ∀ (order : List Nat) (fuel : Nat) (g g' : List FxnRec) (rank : Nat → Nat),
      calcAll fuel g order = some g' →
      NoPtr g → RankOk g rank → NoUnb g → NoUnb g' := by
  intro order
  induction order with
  | nil =>
    intro fuel g g' rank h _ _ hunb
    rw [calcAll] at h
    obtain rfl : g = g' := Option.some.inj h
    exact hunb
  | cons i rest ih =>
    intro fuel g g' rank h hptr hrank hunb
    rw [calcAll] at h
    split at h
    · exact absurd h (by simp)
    · rename_i g1 h1
      have hev := (calcWcs_post fuel g i [] g1 h1).1
      exact ih fuel g1 g' rank h
        (noPtr_of_stable hev.len hev.stable hptr)
        (rankOk_of_stable hev.len hev.stable hrank)
        (calcWcs_noUnb fuel g i [] g1 rank h1 hptr hrank (by simp) hunb)

theorem calcAll_ptrInv :
    ∀ (order : List Nat) (fuel : Nat) (g g' : List FxnRec),
      calcAll fuel g order = some g' → PtrInv g → PtrInv g' := by
  intro order
  induction order with
  | nil =>
    intro fuel g g' h hinv
    rw [calcAll] at h
    obtain rfl : g = g' := Option.some.inj h
    exact hinv
  | cons i rest ih =>
    intro fuel g g' h hinv
    rw [calcAll] at h
    split at h
    · exact absurd h (by simp)
    · rename_i g1 h1
      exact ih fuel g1 g' h (calcWcs_ptrInv fuel g i [] g1 h1 hinv)

theorem calcAll_cycInv :
    ∀ (order : List Nat) (fuel : Nat) (g g' : List FxnRec),
      calcAll fuel g order = some g' → CycInv g → CycInv g' := by
  intro order
  induction order with
  | nil =>
    intro fuel g g' h hinv
    rw [calcAll] at h
    obtain rfl : g = g' := Option.some.inj h
    exact hinv
  | cons i rest ih =>
    intro fuel g g' h hinv
    rw [calcAll] at h
    split at h
    · exact absurd h (by simp)
    · rename_i g1 h1
      exact ih fuel g1 g' h (calcWcs_cycInv fuel g i [] g1 h1 hinv)

/-- A second WCS pass over an arena whose listed records are all finalised
is a no-op: the memoisation guard returns immediately. -/
theorem calcAll_noop :
    ∀ (order : List Nat) (fuel : Nat) (g : List FxnRec),
      0 < fuel → (∀ i ∈ order, (wcsOf g i).isSome) →
      calcAll fuel g order = some g := by
  intro order
  induction order with
  | nil =>
    intro fuel g _ _
    rw [calcAll]
  | cons i rest ih =>
    intro fuel g hfuel hmemo
    obtain ⟨fuel, rfl⟩ : ∃ f, fuel = f + 1 :=
      ⟨fuel - 1, (Nat.succ_pred_eq_of_pos hfuel).symm⟩
    have hsome := hmemo i (List.mem_cons_self ..)
    have hg : ∃ f, g[i]? = some f := by
      cases hgi : g[i]? with
      | none =>
        unfold wcsOf at hsome
        rw [hgi] at hsome
        exact absurd hsome (by simp)
      | some f => exact ⟨f, rfl⟩
    obtain ⟨f, hgf⟩ := hg
    have h1 : calcWcs (fuel + 1) g i [] = some g := by
      show calcWcsF (calcWcs fuel) g i [] = some g
      rw [calcWcsF_eq (calcWcs fuel) g i [] f hgf, if_pos]
      rw [wcsOf_eq hgf] at hsome
      exact hsome
    rw [calcAll, h1]
    exact ih (fuel + 1) g (Nat.succ_pos fuel) (fun j hj => hmemo j (List.mem_cons_of_mem _ hj))

theorem wcsOf_none_ge {g : List FxnRec} {j : Nat} (h : ¬j < g.length) : wcsOf g j = none := by
  unfold wcsOf
  rw [List.getElem?_eq_none (Nat.le_of_not_lt h)]

theorem lt_of_mem_rCallsOf {g : List FxnRec} {j c : Nat} (h : c ∈ rCallsOf g j) :
    j < g.length := by
  by_contra hj
  unfold rCallsOf at h
  rw [List.getElem?_eq_none (Nat.le_of_not_lt hj)] at h
  exact absurd h (by simp)

/-- C2: clobber combination evidence.  A function with `own_stack_bytes = 8`,
`clobber_bytes = 4` and no callees is finalised as `Bounded 20`
(= 2·(8+0)+4), not `Bounded (8+4+0) = Bounded 12` as the claim states: line
103 of `WCS.py` executes `wcs += wcs + clob_sp`, adding the already-combined
value to itself before adding the clobber bytes. -/
theorem c2_clobber_doubled :
    (calcAll 2 gClob [0]).map (fun h => wcsOf h 0) = some (some (Wcs.bounded 20)) ∧
    (calcAll 2 gClob [0]).map (fun h => wcsOf h 0) ≠ some (some (Wcs.bounded (8 + 4 + 0))) := by
  refine ⟨rfl, ?_⟩
  decide

/-- C3: acyclic worst-case formula.  On a well-formed arena with a strictly
decreasing rank along resolved call edges (acyclicity), no pointer calls, no
clobber bytes, no unresolved callees and no precomputed results, the engine
finalises every function as `Bounded (own_stack + max of callee results)`,
the maximum over the empty set being 0. -/
theorem c3_acyclic_formula (g : List FxnRec) (order : List Nat) (fuel : Nat)
    (rank : Nat → Nat)
    (hWF : ∀ i < g.length, ∀ c ∈ rCallsOf g i, c < g.length)
    (hrank : ∀ i < g.length, ∀ c ∈ rCallsOf g i, rank c < rank i)
    (hptr : ∀ i < g.length, ptrOf g i = false)
    (hclob : ∀ i < g.length, clobOf g i = none)
    (hunres : ∀ i < g.length, unresolvedOf g i = [])
    (hw : ∀ i < g.length, wcsOf g i = none)
    (hord : ∀ i ∈ order, i < g.length)
    (hcov : ∀ i < g.length, i ∈ order)
    (hfuel : g.length < fuel) :
    ∃ g', calcAll fuel g order = some g' ∧
      ∀ i < g.length, wcsOf g' i =
        some (Wcs.bounded (localOf g i + listMax ((rCallsOf g i).map (bvalOf g')))) := by
  obtain ⟨g', hall⟩ := calcAll_total order fuel g hWF hord hfuel
  refine ⟨g', hall, ?_⟩
  have hnone : ∀ j, wcsOf g j = none := by
    intro j
    by_cases hj : j < g.length
    · exact hw j hj
    · exact wcsOf_none_ge hj
  have hunb : NoUnb g' := by
    refine calcAll_noUnb order fuel g g' rank hall hptr hrank ?_
    intro j
    rw [hnone j]
    simp
  have hev := calcAll_evolve order fuel g g' hall
  intro i hi
  obtain ⟨w, hw'⟩ := calcAll_covers order fuel g g' hall i (hcov i hi)
  rcases hev.newly i w (hw i hi) hw' with rfl | ⟨n, rfl, _, hf, _⟩
  · exact absurd hw' (hunb i)
  · rw [hw', hf, hclob i hi]
    unfold combineW
    rw [Nat.add_comm]

/-- C4: recursion cut.  Starting from a well-formed arena with no
precomputed results, if `i` is reachable from itself through resolved call
edges then the engine finalises `i`, and every function on the cycle through
`i`, as `Unbounded`. -/
theorem c4_recursion_unbounded (g : List FxnRec) (order : List Nat) (fuel : Nat) (i : Nat)
    (hWF : ∀ j < g.length, ∀ c ∈ rCallsOf g j, c < g.length)
    (hw : ∀ j < g.length, wcsOf g j = none)
    (hord : ∀ j ∈ order, j < g.length)
    (hcov : ∀ j < g.length, j ∈ order)
    (hfuel : g.length < fuel)
    (hcyc : Reach g i i) :
    ∃ g', calcAll fuel g order = some g' ∧
      ∀ j, Reach g i j → Reach g j i → wcsOf g' j = some Wcs.unbounded := by
  obtain ⟨g', hall⟩ := calcAll_total order fuel g hWF hord hfuel
  refine ⟨g', hall, ?_⟩
  have hnone : ∀ j, wcsOf g j = none := by
    intro j
    by_cases hj : j < g.length
    · exact hw j hj
    · exact wcsOf_none_ge hj
  have hcycInv : CycInv g' := by
    refine calcAll_cycInv order fuel g g' hall ?_
    intro j _ n
    rw [hnone j]
    simp
  have hev := calcAll_evolve order fuel g g' hall
  intro j hij hji
  have hjj : Reach g j j := reach_trans hji hij
  have hj : j < g.length := by
    obtain ⟨c, hc, _⟩ := reach_elim hjj
    exact lt_of_mem_rCallsOf hc
  obtain ⟨w, hw'⟩ := calcAll_covers order fuel g g' hall j (hcov j hj)
  have hjj' : Reach g' j j := reach_of_stable (fun k => (hev.stable k).symm) hjj
  cases w with
  | unbounded => exact hw'
  | bounded n => exact absurd hw' (hcycInv j hjj' n)

/-- C5: pointer-call poisoning.  Starting from a well-formed arena with no
precomputed results, a function whose `has_ptr_call` flag is set is
finalised `Unbounded`, whatever its `local_stack` and its callees' results. -/
theorem c5_pointer_unbounded (g : List FxnRec) (order : List Nat) (fuel : Nat) (i : Nat)
    (hWF : ∀ j < g.length, ∀ c ∈ rCallsOf g j, c < g.length)
    (hw : ∀ j < g.length, wcsOf g j = none)
    (hord : ∀ j ∈ order, j < g.length)
    (hfuel : g.length < fuel)
    (hi : i < g.length)
    (hiord : i ∈ order)
    (hptr : ptrOf g i = true) :
    ∃ g', calcAll fuel g order = some g' ∧ wcsOf g' i = some Wcs.unbounded := by
  obtain ⟨g', hall⟩ := calcAll_total order fuel g hWF hord hfuel
  refine ⟨g', hall, ?_⟩
  have hnone : ∀ j, wcsOf g j = none := by
    intro j
    by_cases hj : j < g.length
    · exact hw j hj
    · exact wcsOf_none_ge hj
  have hinv : PtrInv g' := by
    refine calcAll_ptrInv order fuel g g' hall ?_
    intro j n _
    rw [hnone j]
    simp
  have hev := calcAll_evolve order fuel g g' hall
  obtain ⟨w, hw'⟩ := calcAll_covers order fuel g g' hall i hiord
  have hptr' : ptrOf g' i = true := (ptrOf_of_stable hev.stable i).trans hptr
  cases w with
  | unbounded => exact hw'
  | bounded n => exact absurd hw' (hinv i n hptr')

/-- C6: unresolved callee names do not force `Unbounded` and are surfaced.
On a well-formed, rank-acyclic, pointer-free arena with no precomputed
results (unresolved names arbitrary), every function still finalises to a
`Bounded` value, and its final unresolved set consists of exactly its own
unresolved callee names together with those propagated from each of its
resolved callees. -/
theorem c6_unresolved_surfaced (g : List FxnRec) (order : List Nat) (fuel : Nat)
    (rank : Nat → Nat)
    (hWF : ∀ i < g.length, ∀ c ∈ rCallsOf g i, c < g.length)
    (hrank : ∀ i < g.length, ∀ c ∈ rCallsOf g i, rank c < rank i)
    (hptr : ∀ i < g.length, ptrOf g i = false)
    (hw : ∀ i < g.length, wcsOf g i = none)
    (hord : ∀ i ∈ order, i < g.length)
    (hcov : ∀ i < g.length, i ∈ order)
    (hfuel : g.length < fuel) :
    ∃ g', calcAll fuel g order = some g' ∧
      ∀ i < g.length,
        (∃ n, wcsOf g' i = some (Wcs.bounded n)) ∧
        (∀ x, x ∈ unresolvedOf g' i ↔
          x ∈ unresolvedOf g i ∨ ∃ c ∈ rCallsOf g i, x ∈ unresolvedOf g' c) := by
  obtain ⟨g', hall⟩ := calcAll_total order fuel g hWF hord hfuel
  refine ⟨g', hall, ?_⟩
  have hnone : ∀ j, wcsOf g j = none := by
    intro j
    by_cases hj : j < g.length
    · exact hw j hj
    · exact wcsOf_none_ge hj
  have hunb : NoUnb g' := by
    refine calcAll_noUnb order fuel g g' rank hall hptr hrank ?_
    intro j
    rw [hnone j]
    simp
  have hev := calcAll_evolve order fuel g g' hall
  intro i hi
  obtain ⟨w, hw'⟩ := calcAll_covers order fuel g g' hall i (hcov i hi)
  rcases hev.newly i w (hw i hi) hw' with rfl | ⟨n, rfl, _, _, hueq⟩
  · exact absurd hw' (hunb i)
  · exact ⟨⟨n, hw'⟩, hueq⟩

/-- C3 witness: the `A → B → C` example with own stack 8/12/4 satisfies all
hypotheses, and the formula yields `WCS(C)=4`, `WCS(B)=16`, `WCS(A)=24`. -/
theorem c3_acyclic_formula_witness :
    (∃ g', calcAll 4 gABC [0, 1, 2] = some g' ∧
      ∀ i < gABC.length, wcsOf g' i =
        some (Wcs.bounded (localOf gABC i + listMax ((rCallsOf gABC i).map (bvalOf g'))))) ∧
    (calcAll 4 gABC [0, 1, 2]).map (fun h => (wcsOf h 0, wcsOf h 1, wcsOf h 2)) =
      some (some (Wcs.bounded 24), some (Wcs.bounded 16), some (Wcs.bounded 4)) :=
  ⟨c3_acyclic_formula gABC [0, 1, 2] 4 (fun i => 3 - i)
    (by decide) (by decide) (by decide) (by decide) (by decide) (by decide)
    (by decide) (by decide) (by decide), rfl⟩

/-- C4 witness: `A → B → A` makes both `A` and `B` finalise `Unbounded`. -/
theorem c4_recursion_unbounded_witness :
    (∃ g', calcAll 3 gCyc2 [0, 1] = some g' ∧
      ∀ j, Reach gCyc2 0 j → Reach gCyc2 j 0 → wcsOf g' j = some Wcs.unbounded) ∧
    (calcAll 3 gCyc2 [0, 1]).map (fun h => (wcsOf h 0, wcsOf h 1)) =
      some (some Wcs.unbounded, some Wcs.unbounded) :=
  ⟨c4_recursion_unbounded gCyc2 [0, 1] 3 0
    (by decide) (by decide) (by decide) (by decide) (by decide)
    (Reach.head (show 1 ∈ rCallsOf gCyc2 0 by decide)
      (Reach.single (show 0 ∈ rCallsOf gCyc2 1 by decide))), rfl⟩

/-- C5 witness: a function with a pointer call and a bounded callee is
`Unbounded` regardless. -/
theorem c5_pointer_unbounded_witness :
    (∃ g', calcAll 3 gPtr2 [0, 1] = some g' ∧ wcsOf g' 0 = some Wcs.unbounded) ∧
    (calcAll 3 gPtr2 [0, 1]).map (fun h => (wcsOf h 0, wcsOf h 1)) =
      some (some Wcs.unbounded, some (Wcs.bounded 2)) :=
  ⟨c5_pointer_unbounded gPtr2 [0, 1] 3 0
    (by decide) (by decide) (by decide) (by decide) (by decide) (by decide) (by decide), rfl⟩

/-- C6 witness: `A → B` with own unresolved names `X` (at `A`) and `Y`
(at `B`): both functions stay `Bounded` and `A` surfaces `X` and `Y`. -/
theorem c6_unresolved_surfaced_witness :
    (∃ g', calcAll 3 gUnres [0, 1] = some g' ∧
      ∀ i < gUnres.length,
        (∃ n, wcsOf g' i = some (Wcs.bounded n)) ∧
        (∀ x, x ∈ unresolvedOf g' i ↔
          x ∈ unresolvedOf gUnres i ∨ ∃ c ∈ rCallsOf gUnres i, x ∈ unresolvedOf g' c)) ∧
    (calcAll 3 gUnres [0, 1]).map (fun h => (wcsOf h 0, unresolvedOf h 0, unresolvedOf h 1)) =
      some (some (Wcs.bounded 4), ["X", "Y"], ["Y"]) :=
  ⟨c6_unresolved_surfaced gUnres [0, 1] 3 (fun i => 2 - i)
    (by decide) (by decide) (by decide) (by decide) (by decide) (by decide) (by decide), rfl⟩

theorem lookupA_mem {α : Type} : ∀ {l : List (String × α)} {n : String} {v : α},
    lookupA l n = some v → (n, v) ∈ l := by
  intro l
  induction l with
  | nil =>
    intro n v h
    exact absurd h (by simp [lookupA])
  | cons p rest ih =>
    intro n v h
    rw [lookupA] at h
    split at h
    · rename_i hk
      rw [← hk, ← Option.some.inj h]
      exact List.mem_cons_self ..
    · exact List.mem_cons_of_mem _ (ih h)

theorem findFxn_lt {cg : CallGraph} {tu c : String} {k : Nat}
    (hgl : ∀ p ∈ cg.globalsNs, p.2 < cg.arena.length)
    (hlo : ∀ p ∈ cg.localsNs, ∀ q ∈ p.2, q.2 < cg.arena.length)
    (h : findFxn cg tu c = some k) : k < cg.arena.length := by
  unfold findFxn at h
  split at h
  · exact hgl (c, k) (lookupA_mem h)
  · split at h
    · rename_i m hm
      exact hlo (c, m) (lookupA_mem hm) (tu, k) (lookupA_mem h)
    · exact absurd h (by simp)

theorem resolve_arena_getElem (cg : CallGraph) (j : Nat) :
    (resolveAllCalls cg).arena[j]? = (cg.arena[j]?).map (resolveNode cg) := by
  unfold resolveAllCalls
  exact List.getElem?_map ..

theorem length_resolveAll (cg : CallGraph) :
    (resolveAllCalls cg).arena.length = cg.arena.length := by
  unfold resolveAllCalls
  exact List.length_map ..

theorem wcsOf_resolveAll (cg : CallGraph) (j : Nat) :
    wcsOf (resolveAllCalls cg).arena j = wcsOf cg.arena j := by
  unfold wcsOf
  rw [resolve_arena_getElem]
  cases cg.arena[j]? <;> rfl

theorem callsOf_resolveAll (cg : CallGraph) (j : Nat) :
    callsOf (resolveAllCalls cg).arena j = callsOf cg.arena j := by
  unfold callsOf
  rw [resolve_arena_getElem]
  cases cg.arena[j]? <;> rfl

theorem tuOf_resolveAll (cg : CallGraph) (j : Nat) :
    tuOf (resolveAllCalls cg).arena j = tuOf cg.arena j := by
  unfold tuOf
  rw [resolve_arena_getElem]
  cases cg.arena[j]? <;> rfl

theorem rCallsOf_resolveAll (cg : CallGraph) (j : Nat) :
    rCallsOf (resolveAllCalls cg).arena j =
      (callsOf cg.arena j).filterMap (fun c => findFxn cg (tuOf cg.arena j) c) := by
  unfold rCallsOf callsOf tuOf
  rw [resolve_arena_getElem]
  cases cg.arena[j]? <;> rfl

theorem unresolvedOf_resolveAll (cg : CallGraph) (j : Nat) :
    unresolvedOf (resolveAllCalls cg).arena j =
      (callsOf cg.arena j).filter (fun c => (findFxn cg (tuOf cg.arena j) c).isNone) := by
  unfold unresolvedOf callsOf tuOf
  rw [resolve_arena_getElem]
  cases cg.arena[j]? <;> rfl

theorem wfArena_resolveAll (cg : CallGraph)
    (hgl : ∀ p ∈ cg.globalsNs, p.2 < cg.arena.length)
    (hlo : ∀ p ∈ cg.localsNs, ∀ q ∈ p.2, q.2 < cg.arena.length) :
    WfArena (resolveAllCalls cg).arena := by
  intro i hi c hc
  rw [length_resolveAll]
  rw [rCallsOf_resolveAll] at hc
  obtain ⟨x, _, hx⟩ := List.mem_filterMap.mp hc
  exact findFxn_lt hgl hlo hx

theorem cgOrder_lt (cg : CallGraph)
    (hgl : ∀ p ∈ cg.globalsNs, p.2 < cg.arena.length)
    (hlo : ∀ p ∈ cg.localsNs, ∀ q ∈ p.2, q.2 < cg.arena.length) :
    ∀ i ∈ cgOrder cg, i < cg.arena.length := by
  intro i hi
  unfold cgOrder at hi
  rcases List.mem_append.mp hi with hi | hi
  · obtain ⟨p, hp, hpi⟩ := List.mem_map.mp hi
    rw [← hpi]
    exact hgl p hp
  · obtain ⟨l, hl, hil⟩ := List.mem_flatten.mp hi
    obtain ⟨p, hp, hpl⟩ := List.mem_map.mp hl
    rw [← hpl] at hil
    obtain ⟨q, hq, hqi⟩ := List.mem_map.mp hil
    rw [← hqi]
    exact hlo p hp q hq

theorem findFxn_eq_of_ns {cg1 cg : CallGraph} (h1 : cg1.globalsNs = cg.globalsNs)
    (h2 : cg1.localsNs = cg.localsNs) (tu c : String) :
    findFxn cg1 tu c = findFxn cg tu c := by
  unfold findFxn
  rw [h1, h2]

/-- C7: lookup precedence.  `find_fxn(tu, n)` returns the record registered
in the global namespace when one with name `n` exists there; otherwise the
local record registered for `n` in unit `tu` when one exists; otherwise
none. -/
theorem c7_lookup_precedence (cg : CallGraph) (tu n : String) :
    findFxn cg tu n =
      match lookupA cg.globalsNs n with
      | some i => some i
      | none =>
        match lookupA cg.localsNs n with
        | some m => lookupA m tu
        | none => none := by
  unfold findFxn
  cases h : lookupA cg.globalsNs n with
  | some i => simp [h]
  | none => simp [h]

/-- C10: cross-namespace collision asymmetry in `read_obj`.  Registering a
GLOBAL `FUNC` symbol fails when a local of the same name exists in any unit;
registering a LOCAL `FUNC` symbol whose name exists as a global succeeds
(provided the same unit does not already declare that local). -/
theorem c10_collision_asymmetry (cg : CallGraph) (tu nm : String) :
    ((lookupA cg.localsNs nm).isSome = true →
      ∃ e, registerSymbol cg tu { type := "FUNC", bnd := "GLOBAL", name := nm } =
        Except.error e) ∧
    ((lookupA cg.globalsNs nm).isSome = true →
      ((lookupA cg.localsNs nm).bind (fun m => lookupA m tu)) = none →
      ∃ cg', registerSymbol cg tu { type := "FUNC", bnd := "LOCAL", name := nm } =
        Except.ok cg') := by
  constructor
  · intro h
    unfold registerSymbol
    rw [if_pos rfl, if_pos rfl, h, Bool.or_true, if_pos rfl]
    exact ⟨_, rfl⟩
  · intro h1 h2
    unfold registerSymbol
    rw [if_pos rfl, if_neg (by decide : ¬("LOCAL" : String) = "GLOBAL"), if_pos rfl]
    cases hm : lookupA cg.localsNs nm with
    | some m =>
      rw [hm] at h2
      simp only [Option.some_bind] at h2
      show ∃ cg',
        (if (lookupA m tu).isSome = true then
            (Except.error ("Multiple declarations of " ++ nm) : Except String CallGraph)
          else
            Except.ok { cg with
                        arena := cg.arena ++ [newNode tu nm "LOCAL"],
                        localsNs := setA cg.localsNs nm (setA m tu cg.arena.length) }) =
          Except.ok cg'
      rw [if_neg (by rw [h2]; simp)]
      exact ⟨_, rfl⟩
    | none => exact ⟨_, rfl⟩

/-- C10 witness: on `cgMixed`, registering global `g` from another unit
fails, while registering local `f` succeeds. -/
theorem c10_collision_asymmetry_witness :
    (∃ e, registerSymbol cgMixed "v" { type := "FUNC", bnd := "GLOBAL", name := "g" } =
      Except.error e) ∧
    (∃ cg', registerSymbol cgMixed "v" { type := "FUNC", bnd := "LOCAL", name := "f" } =
      Except.ok cg') :=
  ⟨(c10_collision_asymmetry cgMixed "v" "g").1 (by decide),
   (c10_collision_asymmetry cgMixed "v" "f").2 (by decide) (by decide)⟩

/-- C9: manual override as leaf.  Loading a manual `(name, bytes)` pair whose
name is not yet a global creates a record that, after any resolution and WCS
pass, carries `Bounded bytes`, no resolved callees and no unresolved names;
and a caller with `own_stack_bytes = 8` whose only resolved callee is a
manual entry with `bytes = 16` finalises as `Bounded 24`. -/
theorem c9_manual_leaf (cg : CallGraph) (fxn : String) (sz : Nat)
    (hg : lookupA cg.globalsNs fxn = none) :
    (∃ cg', readManualLine cg fxn sz = Except.ok cg' ∧
      ∀ fuel cg2, runPass cg' fuel = some cg2 →
        wcsOf cg2.arena cg.arena.length = some (Wcs.bounded sz) ∧
        rCallsOf cg2.arena cg.arena.length = [] ∧
        unresolvedOf cg2.arena cg.arena.length = []) ∧
    (readManualLine cgCaller "__assert_func" 16).toOption.bind
        (fun c => (runPass c 3).map
          (fun c2 => (wcsOf c2.arena 0, wcsOf c2.arena 1,
            rCallsOf c2.arena 1, unresolvedOf c2.arena 1))) =
      some (some (Wcs.bounded 24), some (Wcs.bounded 16), [], []) := by
  constructor
  · have hok : readManualLine cg fxn sz =
        Except.ok { cg with
                    arena := cg.arena ++ [manualNode fxn sz],
                    globalsNs := setA cg.globalsNs fxn cg.arena.length } := by
      unfold readManualLine
      rw [if_neg (by rw [hg]; simp)]
    refine ⟨_, hok, ?_⟩
    intro fuel cg2 hrun
    set cg' : CallGraph :=
      { cg with
        arena := cg.arena ++ [manualNode fxn sz],
        globalsNs := setA cg.globalsNs fxn cg.arena.length } with hcg'
    have hj : cg'.arena[cg.arena.length]? = some (manualNode fxn sz) := by
      show (cg.arena ++ [manualNode fxn sz])[cg.arena.length]? = some (manualNode fxn sz)
      rw [List.getElem?_append_right (Nat.le_refl _), Nat.sub_self]
      rfl
    have hRj : (resolveAllCalls cg').arena[cg.arena.length]? =
        some (resolveNode cg' (manualNode fxn sz)) := by
      rw [resolve_arena_getElem, hj]
      rfl
    unfold runPass calcAllWcsCg at hrun
    cases hall : calcAll fuel (resolveAllCalls cg').arena (cgOrder (resolveAllCalls cg')) with
    | none => rw [hall] at hrun; exact absurd hrun (by simp)
    | some a =>
      rw [hall] at hrun
      have hcg2 : cg2.arena = a := by
        have := Option.some.inj hrun
        rw [← this]
      have hev := calcAll_evolve _ fuel _ a hall
      have hwR : wcsOf (resolveAllCalls cg').arena cg.arena.length =
          some (Wcs.bounded sz) := by
        rw [wcsOf_eq hRj]
        rfl
      have huR : unresolvedOf (resolveAllCalls cg').arena cg.arena.length = [] := by
        rw [unresolvedOf_eq hRj]
        rfl
      have hrR : rCallsOf (resolveAllCalls cg').arena cg.arena.length = [] := by
        rw [rCallsOf_eq hRj]
        rfl
      refine ⟨?_, ?_, ?_⟩
      · rw [hcg2]
        exact hev.frozen _ _ hwR
      · rw [hcg2, rCallsOf_of_stable hev.stable, hrR]
      · rw [hcg2, hev.frozenU _ _ hwR, huR]
  · rfl

/-- C1: budget-check evidence.  On a finalised call graph whose ordinary
partition's maximum is `Unbounded`, `check_stack_size` does not report the
unbounded result: evaluating `d['wcs'] > max_stack` compares the string
`'unbounded'` with an `int`, a `TypeError` in Python 3, modelled as `none`
(the run aborts before any budget comparison). -/
theorem c1_unbounded_budget_crash :
    wcsOf cgUnbChk.arena 0 = some Wcs.unbounded ∧
    pyStartswith (nameOf cgUnbChk.arena 0) "_irq" = false ∧
    checkStackSizeCg cgUnbChk 256 = none :=
  ⟨rfl, rfl, rfl⟩

/-- C9 witness: the caller/manual example with `name = "__assert_func"`,
`bytes = 16`: the manual record stays `Bounded 16` with no callees and no
unresolved names, and the caller finalises `Bounded 24`. -/
theorem c9_manual_leaf_witness :
    (∃ cg', readManualLine cgCaller "__assert_func" 16 = Except.ok cg' ∧
      ∀ fuel cg2, runPass cg' fuel = some cg2 →
        wcsOf cg2.arena cgCaller.arena.length = some (Wcs.bounded 16) ∧
        rCallsOf cg2.arena cgCaller.arena.length = [] ∧
        unresolvedOf cg2.arena cgCaller.arena.length = []) ∧
    (readManualLine cgCaller "__assert_func" 16).toOption.bind
        (fun c => (runPass c 3).map
          (fun c2 => (wcsOf c2.arena 0, wcsOf c2.arena 1,
            rCallsOf c2.arena 1, unresolvedOf c2.arena 1))) =
      some (some (Wcs.bounded 24), some (Wcs.bounded 16), [], []) :=
  c9_manual_leaf cgCaller "__assert_func" 16 (by decide)

/-- C8 counterexample: running resolution + WCS once over `cgResolve` leaves
`A` with the propagated unresolved set `{X}`; running the two passes twice
leaves `A` with the empty set, because the second resolution resets
`unresolved_calls` and the memoised second WCS pass does not re-propagate.
The per-function results of the two runs differ. -/
theorem c8_idempotence_counterexample :
    (runPass cgResolve 3).map (fun c => unresolvedOf c.arena 0) = some ["X"] ∧
    ((runPass cgResolve 3).bind (fun c => runPass c 3)).map
      (fun c => unresolvedOf c.arena 0) = some [] ∧
    ((runPass cgResolve 3).bind (fun c => runPass c 3)).map
      (fun c => unresolvedOf c.arena 0) ≠
      (runPass cgResolve 3).map (fun c => unresolvedOf c.arena 0) := by
  refine ⟨rfl, rfl, ?_⟩
  decide

/-- C8 amended: running resolution + WCS twice yields the same `wcs` values
and the same resolved-callee lists as running them once, but each function's
unresolved-name set after the second run holds only its own unresolved
callee names — the names propagated from callees during the first WCS pass
are dropped by the second resolution and not re-added by the memoised second
WCS pass. -/
theorem c8_second_run (cg : CallGraph) (fuel : Nat)
    (hgl : ∀ p ∈ cg.globalsNs, p.2 < cg.arena.length)
    (hlo : ∀ p ∈ cg.localsNs, ∀ q ∈ p.2, q.2 < cg.arena.length)
    (hfuel : cg.arena.length < fuel) :
    ∃ cg1 cg2, runPass cg fuel = some cg1 ∧ runPass cg1 fuel = some cg2 ∧
      (∀ i, wcsOf cg2.arena i = wcsOf cg1.arena i) ∧
      (∀ i, rCallsOf cg2.arena i = rCallsOf cg1.arena i) ∧
      (∀ i, unresolvedOf cg2.arena i =
        (callsOf cg.arena i).filter
          (fun c => (findFxn cg (tuOf cg.arena i) c).isNone)) := by
  have hordlt : ∀ i ∈ cgOrder cg, i < cg.arena.length := cgOrder_lt cg hgl hlo
  have hwfR : WfArena (resolveAllCalls cg).arena := wfArena_resolveAll cg hgl hlo
  obtain ⟨a1, hall⟩ :=
    calcAll_total (cgOrder cg) fuel (resolveAllCalls cg).arena hwfR
      (fun i hi => (length_resolveAll cg) ▸ hordlt i hi)
      ((length_resolveAll cg) ▸ hfuel)
  set cg1 : CallGraph := { resolveAllCalls cg with arena := a1 } with hcg1
  have hrun1 : runPass cg fuel = some cg1 := by
    unfold runPass calcAllWcsCg
    have horder : cgOrder (resolveAllCalls cg) = cgOrder cg := rfl
    rw [horder, hall]
    rfl
  have hev1 := calcAll_evolve (cgOrder cg) fuel (resolveAllCalls cg).arena a1 hall
  -- namespaces survive both passes, so the second resolution recomputes
  -- the same callee lists
  have hns1g : cg1.globalsNs = cg.globalsNs := rfl
  have hns1l : cg1.localsNs = cg.localsNs := rfl
  have hfind : ∀ tu c, findFxn cg1 tu c = findFxn cg tu c :=
    findFxn_eq_of_ns hns1g hns1l
  have hsome1 : ∀ i ∈ cgOrder cg1, (wcsOf (resolveAllCalls cg1).arena i).isSome := by
    intro i hi
    rw [wcsOf_resolveAll]
    have hi' : i ∈ cgOrder cg := hi
    obtain ⟨w, hw⟩ := calcAll_covers (cgOrder cg) fuel (resolveAllCalls cg).arena a1 hall i hi'
    show (wcsOf a1 i).isSome
    rw [hw]
    rfl
  have hnoop : calcAll fuel (resolveAllCalls cg1).arena (cgOrder cg1) =
      some (resolveAllCalls cg1).arena :=
    calcAll_noop (cgOrder cg1) fuel (resolveAllCalls cg1).arena
      (Nat.lt_of_le_of_lt (Nat.zero_le _) hfuel) hsome1
  refine ⟨cg1, { resolveAllCalls cg1 with arena := (resolveAllCalls cg1).arena },
    hrun1, ?_, ?_, ?_, ?_⟩
  · unfold runPass calcAllWcsCg
    have horder2 : cgOrder (resolveAllCalls cg1) = cgOrder cg1 := rfl
    rw [horder2, hnoop]
    rfl
  · -- wcs values agree
    intro i
    show wcsOf (resolveAllCalls cg1).arena i = wcsOf cg1.arena i
    exact wcsOf_resolveAll cg1 i
  · -- resolved-callee lists agree
    intro i
    show rCallsOf (resolveAllCalls cg1).arena i = rCallsOf cg1.arena i
    rw [rCallsOf_resolveAll cg1 i]
    have hcalls : callsOf cg1.arena i = callsOf cg.arena i :=
      (callsOf_of_stable hev1.stable i).trans (callsOf_resolveAll cg i)
    have htu : tuOf cg1.arena i = tuOf cg.arena i :=
      (tuOf_of_stable hev1.stable i).trans (tuOf_resolveAll cg i)
    have hrc1 : rCallsOf cg1.arena i =
        (callsOf cg.arena i).filterMap (fun c => findFxn cg (tuOf cg.arena i) c) :=
      (rCallsOf_of_stable hev1.stable i).trans (rCallsOf_resolveAll cg i)
    rw [hcalls, htu, hrc1]
    refine List.filterMap_congr ?_
    intro c _
    rw [hfind]
  · -- the second run keeps only each function's own unresolved names
    intro i
    show unresolvedOf (resolveAllCalls cg1).arena i = _
    rw [unresolvedOf_resolveAll cg1 i]
    have hcalls : callsOf cg1.arena i = callsOf cg.arena i :=
      (callsOf_of_stable hev1.stable i).trans (callsOf_resolveAll cg i)
    have htu : tuOf cg1.arena i = tuOf cg.arena i :=
      (tuOf_of_stable hev1.stable i).trans (tuOf_resolveAll cg i)
    rw [hcalls, htu]
    refine List.filter_congr ?_
    intro c _
    rw [hfind]

/-- C8 amended witness: on `cgResolve` the two runs agree on `wcs` and
`r_calls`, and the second run's unresolved sets are exactly the own
misses. -/
theorem c8_second_run_witness :
    ∃ cg1 cg2, runPass cgResolve 3 = some cg1 ∧ runPass cg1 3 = some cg2 ∧
      (∀ i, wcsOf cg2.arena i = wcsOf cg1.arena i) ∧
      (∀ i, rCallsOf cg2.arena i = rCallsOf cg1.arena i) ∧
      (∀ i, unresolvedOf cg2.arena i =
        (callsOf cgResolve.arena i).filter
          (fun c => (findFxn cgResolve (tuOf cgResolve.arena i) c).isNone)) :=
  c8_second_run cgResolve 3 (by decide) (by decide) (by decide)
